import Mathlib

/-!
Verification of the EnVault core: encryption engine framing (AES-256-GCM
modelled as an ideal AEAD), master-key validation and classification,
multi-key decryption fallback, the .env text codec, the secret classifier,
the diff engine and the schema validator.

JavaScript strings are modelled as lists of characters (type JsString);
byte buffers as lists of naturals below 256 (type Bytes).  External
cryptographic primitives (scrypt, the GCM keystream and authentication tag)
are modelled as concrete deterministic functions with the structural
properties the surrounding code relies on: fixed output lengths, byte range,
determinism, and tag verification by recomputation.
-/

set_option maxHeartbeats 1000000

abbrev JsString := List Char

abbrev Bytes := List Nat

/-- Whitespace class used by JavaScript trim and by the regex class \s
(the common members; exotic Unicode spaces omitted). -/
def isJsSpace (c : Char) : Bool :=
  c = ' ' || c = '\t' || c = '\n' || c = '\x0d' || c = '\x0b' || c = '\x0c' ||
  c = ' ' || c = '﻿'

/-- Model of the JavaScript String trim method over character lists. -/
def trimChars (l : JsString) : JsString :=
  ((l.dropWhile isJsSpace).reverse.dropWhile isJsSpace).reverse

/-- Model of the JavaScript String trimEnd method over character lists. -/
def trimEndChars (l : JsString) : JsString :=
  (l.reverse.dropWhile isJsSpace).reverse

theorem dropWhile_eq_self_of_head (p : Char → Bool) :
    ∀ (l : JsString), (∀ c, l.head? = some c → p c = false) → l.dropWhile p = l
  | [], _ => rfl
  | c :: l, h => by simp [List.dropWhile, h c rfl]

/-- Trimming a list whose first and last characters are not whitespace is the
identity. -/
theorem trimChars_eq_self (l : JsString)
    (h1 : ∀ c, l.head? = some c → isJsSpace c = false)
    (h2 : ∀ c, l.getLast? = some c → isJsSpace c = false) :
    trimChars l = l := by
  unfold trimChars
  rw [dropWhile_eq_self_of_head _ l h1]
  rw [dropWhile_eq_self_of_head _ l.reverse
    (by intro c hc; exact h2 c (by rwa [List.head?_reverse] at hc))]
  exact List.reverse_reverse l

/-- Trimming a list with no whitespace at all is the identity. -/
theorem trimChars_eq_self_of_no_space (l : JsString)
    (h : ∀ c ∈ l, isJsSpace c = false) : trimChars l = l := by
  apply trimChars_eq_self
  · intro c hc
    exact h c (by cases l with
      | nil => simp at hc
      | cons a l => simp at hc; simp [hc])
  · intro c hc
    obtain ⟨hne, he⟩ := List.mem_getLast?_eq_getLast (Option.mem_def.mpr hc)
    exact h c (he ▸ List.getLast_mem hne)

/-! ## Base64 codec

Model of the base64 transport encoding: the encoder is the standard padded
RFC 4648 alphabet encoding used by Node Buffer toString, and the decoder
models the lenient Node Buffer.from base64 decoding (characters outside the
alphabet, including padding, are skipped; the sextet stream is then packed
back into bytes, dropping trailing bits). -/

def b64Alphabet : List Char :=
  ("ABCDEFGHIJKLMNOPQRSTUVWXYZabcdefghijklmnopqrstuvwxyz0123456789+/").data

/-- Character of a six-bit value. -/
def b64Char (n : Nat) : Char := b64Alphabet.getD n 'A'

/-- Six-bit value of an alphabet character, none for non-alphabet
characters (these are skipped by the lenient decoder). -/
def b64Val (c : Char) : Option Nat := b64Alphabet.findIdx? (fun d => d = c)

/-- Standard padded base64 encoding of a byte list. -/
def base64Encode : Bytes → JsString
  | b0 :: b1 :: b2 :: rest =>
      b64Char (b0 / 4) :: b64Char (b0 % 4 * 16 + b1 / 16) ::
      b64Char (b1 % 16 * 4 + b2 / 64) :: b64Char (b2 % 64) :: base64Encode rest
  | [b0, b1] => [b64Char (b0 / 4), b64Char (b0 % 4 * 16 + b1 / 16), b64Char (b1 % 16 * 4), '=']
  | [b0] => [b64Char (b0 / 4), b64Char (b0 % 4 * 16), '=', '=']
  | [] => []

/-- Repack a sextet stream into bytes, dropping trailing bits. -/
def bytesFromSextets : List Nat → Bytes
  | s0 :: s1 :: s2 :: s3 :: rest =>
      (s0 * 4 + s1 / 16) :: (s1 % 16 * 16 + s2 / 4) :: (s2 % 4 * 64 + s3) ::
      bytesFromSextets rest
  | [s0, s1, s2] => [s0 * 4 + s1 / 16, s1 % 16 * 16 + s2 / 4]
  | [s0, s1] => [s0 * 4 + s1 / 16]
  | _ => []

/-- Model of Node Buffer.from with base64 encoding: lenient, never throws. -/
def nodeB64Decode (s : JsString) : Bytes :=
  bytesFromSextets (s.filterMap b64Val)

theorem b64Val_b64Char {n : Nat} (h : n < 64) : b64Val (b64Char n) = some n := by
  revert n h; decide

theorem b64Val_pad : b64Val '=' = none := by decide

theorem filterMap_b64Val_cons {n : Nat} (h : n < 64) (l : JsString) :
    (b64Char n :: l).filterMap b64Val = n :: l.filterMap b64Val := by
  simp [List.filterMap_cons, b64Val_b64Char h]

theorem filterMap_b64Val_pad (l : JsString) :
    ('=' :: l).filterMap b64Val = l.filterMap b64Val := by
  simp [List.filterMap_cons, b64Val_pad]

/-- Lenient decoding inverts the padded encoding. -/
theorem nodeB64Decode_base64Encode :
    ∀ (b : Bytes), (∀ x ∈ b, x < 256) → nodeB64Decode (base64Encode b) = b
  | [], _ => rfl
  | [b0], h => by
      have h0 : b0 < 256 := h b0 (by simp)
      unfold nodeB64Decode base64Encode
      rw [filterMap_b64Val_cons (by omega), filterMap_b64Val_cons (by omega),
        filterMap_b64Val_pad, filterMap_b64Val_pad]
      simp [bytesFromSextets]
      omega
  | [b0, b1], h => by
      have h0 : b0 < 256 := h b0 (by simp)
      have h1 : b1 < 256 := h b1 (by simp)
      unfold nodeB64Decode base64Encode
      rw [filterMap_b64Val_cons (by omega), filterMap_b64Val_cons (by omega),
        filterMap_b64Val_cons (by omega), filterMap_b64Val_pad]
      simp [bytesFromSextets]
      constructor
      · omega
      · omega
  | b0 :: b1 :: b2 :: rest, h => by
      have h0 : b0 < 256 := h b0 (by simp)
      have h1 : b1 < 256 := h b1 (by simp)
      have h2 : b2 < 256 := h b2 (by simp)
      have ih := nodeB64Decode_base64Encode rest (fun x hx => h x (by simp [hx]))
      unfold nodeB64Decode base64Encode
      rw [filterMap_b64Val_cons (by omega), filterMap_b64Val_cons (by omega),
        filterMap_b64Val_cons (by omega), filterMap_b64Val_cons (by omega)]
      unfold bytesFromSextets
      unfold nodeB64Decode at ih
      rw [ih]
      simp only [List.cons.injEq]
      refine ⟨by omega, by omega, by omega, trivial⟩

/-- Length of the padded base64 encoding. -/
theorem base64Encode_length :
    ∀ (b : Bytes), (base64Encode b).length = 4 * ((b.length + 2) / 3)
  | [] => rfl
  | [_] => by simp [base64Encode]
  | [_, _] => by simp [base64Encode]
  | _ :: _ :: _ :: rest => by
      have ih := base64Encode_length rest
      unfold base64Encode
      simp only [List.length_cons, ih]
      omega

/-! ## Encryption engine

Embedding of the EnVault encryption module.  Constants and control flow
follow the source; the external Node crypto primitives (scrypt, AES-256-GCM)
are modelled as concrete deterministic functions.  Randomness (nonce and
key-derivation salt, produced by randomBytes in the source) is passed in as
explicit arguments. -/

def NONCE_LENGTH : Nat := 12

def TAG_LENGTH : Nat := 16

def KEY_LENGTH : Nat := 32

def SALT_LENGTH : Nat := 16

/-- Hexadecimal digit test, case-insensitive, as in the regex [a-f0-9] with
the i flag. -/
def isHexDigitChar (c : Char) : Bool :=
  (('0').toNat ≤ c.toNat && c.toNat ≤ ('9').toNat) ||
  (('a').toNat ≤ c.toNat && c.toNat ≤ ('f').toNat) ||
  (('A').toNat ≤ c.toNat && c.toNat ≤ ('F').toNat)

/-- Test for the regex of 64 hex characters anchored at both ends,
case-insensitive, used to recognise a direct 256-bit hex key. -/
def isHex64 (s : JsString) : Bool :=
  s.length == 64 && s.all isHexDigitChar

/-- Value of one hex digit (0 for non-hex characters, which cannot occur
after the isHex64 guard). -/
def hexVal (c : Char) : Nat :=
  if ('0').toNat ≤ c.toNat && c.toNat ≤ ('9').toNat then c.toNat - ('0').toNat
  else if ('a').toNat ≤ c.toNat && c.toNat ≤ ('f').toNat then c.toNat - ('a').toNat + 10
  else if ('A').toNat ≤ c.toNat && c.toNat ≤ ('F').toNat then c.toNat - ('A').toNat + 10
  else 0

/-- Model of Node Buffer.from with hex encoding: consecutive digit pairs
become bytes. -/
def hexDecode : JsString → Bytes
  | c0 :: c1 :: rest => (hexVal c0 * 16 + hexVal c1) :: hexDecode rest
  | _ => []

/-- Model of Node scryptSync (external memory-hard KDF, N=16384 r=8 p=1):
a concrete deterministic 32-byte derivation from passphrase and salt.  The
claims rely only on determinism, output length 32 and byte range. -/
def scryptSync (password : JsString) (salt : Bytes) : Bytes :=
  let pAcc := password.foldl (fun a c => (a * 131 + c.toNat) % 65521) 7
  let sAcc := salt.foldl (fun a b => (a * 251 + b) % 65521) 13
  (List.range KEY_LENGTH).map (fun i => (pAcc * 31 + sAcc * 17 + i * 97) % 256)

/-- Derive a 256-bit key from the master key using scrypt; uses the supplied
salt, or the caller-threaded random salt when none is given (randomBytes in
the source). -/
def deriveKey (masterKey : JsString) (salt : Option Bytes) (rand : Bytes) :
    Bytes × Bytes :=
  let useSalt := salt.getD rand
  (scryptSync masterKey useSalt, useSalt)

/-- Check if master key is a direct key (hex or base64 of 32 bytes) vs a
passphrase. -/
def isDirectKey (masterKey : JsString) : Bool :=
  isHex64 masterKey || (nodeB64Decode masterKey).length == KEY_LENGTH

/-- Get raw key buffer from master key: hex first, then base64 decoding to
exactly 32 bytes, otherwise scrypt derivation (returning the salt used). -/
def getKeyBuffer (masterKey : JsString) (salt : Option Bytes) (rand : Bytes) :
    Bytes × Option Bytes :=
  if isHex64 masterKey then (hexDecode masterKey, none)
  else if (nodeB64Decode masterKey).length == KEY_LENGTH then
    (nodeB64Decode masterKey, none)
  else
    let d := deriveKey masterKey salt rand
    (d.1, some d.2)

/-- Model of the AES-256-GCM keystream (external cipher): one byte per
position, determined by key, nonce and position. -/
def gcmKeystream (key nonce : Bytes) (i : Nat) : Nat :=
  let kAcc := key.foldl (fun a b => (a * 257 + b) % 65521) 3
  let nAcc := nonce.foldl (fun a b => (a * 263 + b) % 65521) 5
  (kAcc * 19 + nAcc * 23 + i * 41) % 256

/-- Stream encryption and decryption (GCM is a counter-mode stream cipher,
so encryption and decryption are the same xor). -/
def gcmXor (key nonce : Bytes) : Nat → Bytes → Bytes
  | _, [] => []
  | i, b :: rest => (b ^^^ gcmKeystream key nonce i) :: gcmXor key nonce (i + 1) rest

/-- Model of the 16-byte GCM authentication tag (external MAC): determined
by key, nonce and ciphertext; the decryptor verifies it by recomputation. -/
def gcmTag (key nonce ct : Bytes) : Bytes :=
  let kAcc := key.foldl (fun a b => (a * 269 + b) % 65521) 11
  let nAcc := nonce.foldl (fun a b => (a * 271 + b) % 65521) 17
  let cAcc := ct.foldl (fun a b => (a * 277 + b) % 65521) 19
  (List.range TAG_LENGTH).map (fun i => (kAcc * 29 + nAcc * 31 + cAcc * 37 + i * 43) % 256)

/-- Custom error for decryption failures. -/
structure DecryptionError where
  message : JsString
deriving DecidableEq, Repr

/-- Encrypt a plaintext value (given as its UTF-8 bytes).  Blob layout:
base64(salt(16 bytes, passphrase mode only) + nonce(12) + tag(16) +
ciphertext).  The fresh random nonce and the random candidate salt produced
by randomBytes in the source are explicit arguments. -/
def encrypt (plaintext : Bytes) (masterKey : JsString)
    (nonce saltRand : Bytes) : JsString :=
  let kb := getKeyBuffer masterKey none saltRand
  let ciphertext := gcmXor kb.1 nonce 0 plaintext
  let tag := gcmTag kb.1 nonce ciphertext
  let combined := match kb.2 with
    | some salt => salt ++ nonce ++ tag ++ ciphertext
    | none => nonce ++ tag ++ ciphertext
  base64Encode combined

/-- Decrypt a ciphertext value: decode, check minimum viable length, slice
off the salt when the supplied key is classified as a passphrase, slice
nonce, tag and ciphertext, re-derive the key, then verify the tag and
decrypt; verification failure raises DecryptionError with no partial
output. -/
def decrypt (encrypted : JsString) (masterKey : JsString) :
    Except DecryptionError Bytes :=
  let combined := nodeB64Decode encrypted
  if combined.length < NONCE_LENGTH + TAG_LENGTH then
    .error ⟨("Invalid encrypted data: too short").data⟩
  else if !isDirectKey masterKey &&
      combined.length < SALT_LENGTH + NONCE_LENGTH + TAG_LENGTH then
    .error ⟨("Invalid encrypted data: too short for passphrase mode").data⟩
  else
    let offset := if isDirectKey masterKey then 0 else SALT_LENGTH
    let salt : Option Bytes :=
      if isDirectKey masterKey then none else some (combined.take SALT_LENGTH)
    let nonce := (combined.drop offset).take NONCE_LENGTH
    let tag := (combined.drop (offset + NONCE_LENGTH)).take TAG_LENGTH
    let ciphertext := combined.drop (offset + NONCE_LENGTH + TAG_LENGTH)
    let kb := getKeyBuffer masterKey salt []
    if tag = gcmTag kb.1 nonce ciphertext then
      .ok (gcmXor kb.1 nonce 0 ciphertext)
    else
      .error ⟨("Decryption failed: invalid key or corrupted data").data⟩

/-- Result object of validateMasterKey. -/
structure KeyValidation where
  valid : Bool
  error : Option JsString := none
deriving DecidableEq, Repr

/-- Base64 alphabet character class [A-Za-z0-9+/] of the validation
regexes. -/
def isB64AlphaChar (c : Char) : Bool :=
  (('A').toNat ≤ c.toNat && c.toNat ≤ ('Z').toNat) ||
  (('a').toNat ≤ c.toNat && c.toNat ≤ ('z').toNat) ||
  (('0').toNat ≤ c.toNat && c.toNat ≤ ('9').toNat) ||
  c = '+' || c = '/'

/-- Test for the regex of 43 base64 characters followed by at most one
padding character, anchored. -/
def matchesB64Pad1 (s : JsString) : Bool :=
  (s.take 43).length == 43 && (s.take 43).all isB64AlphaChar &&
  (s.drop 43 == [] || s.drop 43 == ['='])

/-- Test for the regex of 42 base64 characters followed by one or two
padding characters, anchored. -/
def matchesB64Pad2 (s : JsString) : Bool :=
  (s.take 42).length == 42 && (s.take 42).all isB64AlphaChar &&
  (s.drop 42 == ['='] || s.drop 42 == ['=', '='])

/-- Validate master key format and length: 64 hex characters, a base64
shape of about 32 bytes, or any passphrase of at least 8 characters. -/
def validateMasterKey (masterKey : JsString) : KeyValidation :=
  if masterKey.length = 0 then
    ⟨false, some ("Master key is required").data⟩
  else if isHex64 masterKey then ⟨true, none⟩
  else if matchesB64Pad1 masterKey || matchesB64Pad2 masterKey then ⟨true, none⟩
  else if masterKey.length < 8 then
    ⟨false, some ("Master key must be at least 8 characters for passphrase derivation").data⟩
  else ⟨true, none⟩

/-- Check if a value appears to be encrypted: at least 44 characters and
base64-decoding to at least nonce + tag + one byte. -/
def isEncrypted (value : JsString) : Bool :=
  if value.length < 44 then false
  else decide (NONCE_LENGTH + TAG_LENGTH + 1 ≤ (nodeB64Decode value).length)

/-! ## Structural lemmas about the crypto model -/

theorem xorByte_lt_256 {a b : Nat} (ha : a < 256) (hb : b < 256) :
    a ^^^ b < 256 := by
  have ha8 : a < 2 ^ 8 := by norm_num; omega
  have hb8 : b < 2 ^ 8 := by norm_num; omega
  have h : Nat.bitwise bne a b < 2 ^ 8 := Nat.bitwise_lt ha8 hb8
  norm_num at h
  exact h

theorem gcmKeystream_lt (key nonce : Bytes) (i : Nat) :
    gcmKeystream key nonce i < 256 := by
  unfold gcmKeystream
  exact Nat.mod_lt _ (by norm_num)

theorem gcmXor_length (key nonce : Bytes) :
    ∀ (i : Nat) (l : Bytes), (gcmXor key nonce i l).length = l.length
  | _, [] => rfl
  | i, _ :: rest => by
      unfold gcmXor
      simp [gcmXor_length key nonce (i + 1) rest]

theorem gcmXor_lt (key nonce : Bytes) :
    ∀ (i : Nat) (l : Bytes), (∀ x ∈ l, x < 256) →
      ∀ x ∈ gcmXor key nonce i l, x < 256
  | _, [], _ => by intro x hx; exact absurd hx (List.not_mem_nil x)
  | i, b :: rest, h => by
      intro x hx
      unfold gcmXor at hx
      rcases List.mem_cons.mp hx with h1 | h2
      · exact h1 ▸ xorByte_lt_256 (h b (by simp)) (gcmKeystream_lt key nonce i)
      · exact gcmXor_lt key nonce (i + 1) rest (fun y hy => h y (by simp [hy])) x h2

/-- Xor streaming is an involution: decryption undoes encryption. -/
theorem gcmXor_cons (key nonce : Bytes) (i b : Nat) (l : Bytes) :
    gcmXor key nonce i (b :: l) =
      (b ^^^ gcmKeystream key nonce i) :: gcmXor key nonce (i + 1) l := rfl

theorem gcmXor_gcmXor (key nonce : Bytes) :
    ∀ (i : Nat) (l : Bytes), gcmXor key nonce i (gcmXor key nonce i l) = l
  | _, [] => rfl
  | i, b :: rest => by
      rw [gcmXor_cons, gcmXor_cons, gcmXor_gcmXor key nonce (i + 1) rest,
        Nat.xor_cancel_right]

theorem gcmTag_length (key nonce ct : Bytes) : (gcmTag key nonce ct).length = 16 := by
  simp [gcmTag, TAG_LENGTH]

theorem gcmTag_lt (key nonce ct : Bytes) : ∀ x ∈ gcmTag key nonce ct, x < 256 := by
  intro x hx
  unfold gcmTag at hx
  simp only [List.mem_map, List.mem_range] at hx
  obtain ⟨i, _, hi⟩ := hx
  exact hi ▸ Nat.mod_lt _ (by norm_num)

theorem scryptSync_length (p : JsString) (s : Bytes) : (scryptSync p s).length = 32 := by
  simp [scryptSync, KEY_LENGTH]

theorem scryptSync_lt (p : JsString) (s : Bytes) : ∀ x ∈ scryptSync p s, x < 256 := by
  intro x hx
  unfold scryptSync at hx
  simp only [List.mem_map, List.mem_range] at hx
  obtain ⟨i, _, hi⟩ := hx
  exact hi ▸ Nat.mod_lt _ (by norm_num)

theorem hexVal_lt (c : Char) : hexVal c < 16 := by
  have e0 : ('0').toNat = 48 := rfl
  have e9 : ('9').toNat = 57 := rfl
  have ea : ('a').toNat = 97 := rfl
  have ef : ('f').toNat = 102 := rfl
  have eA : ('A').toNat = 65 := rfl
  have eF : ('F').toNat = 70 := rfl
  unfold hexVal
  repeat' split
  all_goals simp_all only [Bool.and_eq_true, decide_eq_true_eq]
  all_goals omega

theorem hexDecode_lt : ∀ (s : JsString), ∀ x ∈ hexDecode s, x < 256
  | c0 :: c1 :: rest => by
      intro x hx
      unfold hexDecode at hx
      rcases List.mem_cons.mp hx with h1 | h2
      · have v0 := hexVal_lt c0
        have v1 := hexVal_lt c1
        omega
      · exact hexDecode_lt rest x h2
  | [] => by intro x hx; simp [hexDecode] at hx
  | [c] => by intro x hx; simp [hexDecode] at hx

theorem take_append_exact {α : Type} (l1 l2 : List α) (n : Nat)
    (h : l1.length = n) : (l1 ++ l2).take n = l1 := by
  subst h; simp

theorem drop_append_exact {α : Type} (l1 l2 : List α) (n : Nat)
    (h : l1.length = n) : (l1 ++ l2).drop n = l2 := by
  subst h; simp

/-- Key bytes used for a direct master key: hex decoding takes precedence,
then base64. -/
def directKeyBytes (k : JsString) : Bytes :=
  if isHex64 k then hexDecode k else nodeB64Decode k

theorem getKeyBuffer_of_direct {k : JsString} (h : isDirectKey k = true)
    (s : Option Bytes) (r : Bytes) :
    getKeyBuffer k s r = (directKeyBytes k, none) := by
  unfold getKeyBuffer directKeyBytes
  unfold isDirectKey at h
  cases hh : isHex64 k with
  | true => simp [hh]
  | false =>
      rw [hh] at h
      simp only [Bool.false_or] at h
      simp [hh, h]

theorem getKeyBuffer_of_passphrase {k : JsString} (h : isDirectKey k = false)
    (s : Option Bytes) (r : Bytes) :
    getKeyBuffer k s r = (scryptSync k (s.getD r), some (s.getD r)) := by
  unfold getKeyBuffer deriveKey
  unfold isDirectKey at h
  simp only [Bool.or_eq_false_iff] at h
  simp [h.1, h.2]

/-- Shape of the encrypted blob for a direct key: nonce, tag, ciphertext. -/
theorem encrypt_direct_eq {k : JsString} (h : isDirectKey k = true)
    (p nonce saltR : Bytes) :
    encrypt p k nonce saltR =
      base64Encode (nonce ++ (gcmTag (directKeyBytes k) nonce
        (gcmXor (directKeyBytes k) nonce 0 p) ++
        gcmXor (directKeyBytes k) nonce 0 p)) := by
  unfold encrypt
  rw [getKeyBuffer_of_direct h]
  simp

/-- Shape of the encrypted blob for a passphrase: salt, nonce, tag,
ciphertext, with the key derived from the random salt. -/
theorem encrypt_passphrase_eq {k : JsString} (h : isDirectKey k = false)
    (p nonce saltR : Bytes) :
    encrypt p k nonce saltR =
      base64Encode (saltR ++ (nonce ++ (gcmTag (scryptSync k saltR) nonce
        (gcmXor (scryptSync k saltR) nonce 0 p) ++
        gcmXor (scryptSync k saltR) nonce 0 p))) := by
  unfold encrypt
  rw [getKeyBuffer_of_passphrase h]
  simp

/-- Behaviour of decrypt on a structurally well-formed direct-key blob:
everything reduces to the authentication-tag comparison. -/
theorem decrypt_wellformed_direct {k : JsString} (hd : isDirectKey k = true)
    (nonce tg ct : Bytes)
    (hn : nonce.length = 12) (ht : tg.length = 16)
    (hb : ∀ x ∈ nonce ++ (tg ++ ct), x < 256) :
    decrypt (base64Encode (nonce ++ (tg ++ ct))) k =
      if tg = gcmTag (directKeyBytes k) nonce ct then
        .ok (gcmXor (directKeyBytes k) nonce 0 ct)
      else .error ⟨("Decryption failed: invalid key or corrupted data").data⟩ := by
  have hlen : (nonce ++ (tg ++ ct)).length = 28 + ct.length := by
    simp [hn, ht]; omega
  unfold decrypt
  rw [nodeB64Decode_base64Encode _ hb]
  rw [if_neg (by simp only [NONCE_LENGTH, TAG_LENGTH, hlen]; omega)]
  rw [if_neg (by simp [hd])]
  simp only [hd, if_true, Bool.true_and, reduceIte]
  rw [getKeyBuffer_of_direct hd]
  have e1 : (nonce ++ (tg ++ ct)).drop 0 = nonce ++ (tg ++ ct) := List.drop_zero _
  have e2 : (nonce ++ (tg ++ ct)).take NONCE_LENGTH = nonce :=
    take_append_exact _ _ _ hn
  have e3 : (nonce ++ (tg ++ ct)).drop NONCE_LENGTH = tg ++ ct :=
    drop_append_exact _ _ _ hn
  simp only [NONCE_LENGTH, TAG_LENGTH, Nat.zero_add, Nat.add_zero] at *
  rw [e1, e2, e3]
  rw [take_append_exact _ _ _ ht]
  have e4 : (nonce ++ (tg ++ ct)).drop 28 = ct := by
    have h28 : (28 : Nat) = 12 + 16 := by norm_num
    rw [h28, ← List.drop_drop, e3, drop_append_exact _ _ _ ht]
  rw [e4]

/-- Behaviour of decrypt on a structurally well-formed passphrase blob:
the salt is sliced off, the key re-derived from it, and everything reduces
to the authentication-tag comparison. -/
theorem decrypt_wellformed_passphrase {k : JsString} (hd : isDirectKey k = false)
    (salt nonce tg ct : Bytes)
    (hs : salt.length = 16) (hn : nonce.length = 12) (ht : tg.length = 16)
    (hb : ∀ x ∈ salt ++ (nonce ++ (tg ++ ct)), x < 256) :
    decrypt (base64Encode (salt ++ (nonce ++ (tg ++ ct)))) k =
      if tg = gcmTag (scryptSync k salt) nonce ct then
        .ok (gcmXor (scryptSync k salt) nonce 0 ct)
      else .error ⟨("Decryption failed: invalid key or corrupted data").data⟩ := by
  have hlen : (salt ++ (nonce ++ (tg ++ ct))).length = 44 + ct.length := by
    simp [hs, hn, ht]; omega
  unfold decrypt
  rw [nodeB64Decode_base64Encode _ hb]
  rw [if_neg (by simp [NONCE_LENGTH, TAG_LENGTH, hlen]; omega)]
  rw [if_neg (by simp [hd, SALT_LENGTH, NONCE_LENGTH, TAG_LENGTH, hlen])]
  simp only [hd, Bool.false_eq_true, if_false, reduceIte]
  have esalt : (salt ++ (nonce ++ (tg ++ ct))).take SALT_LENGTH = salt :=
    take_append_exact _ _ _ (by simpa [SALT_LENGTH] using hs)
  rw [esalt]
  rw [getKeyBuffer_of_passphrase hd]
  have edrop : (salt ++ (nonce ++ (tg ++ ct))).drop SALT_LENGTH = nonce ++ (tg ++ ct) :=
    drop_append_exact _ _ _ (by simpa [SALT_LENGTH] using hs)
  simp only [SALT_LENGTH, NONCE_LENGTH, TAG_LENGTH] at *
  rw [edrop]
  rw [take_append_exact _ _ _ hn]
  have e3 : (salt ++ (nonce ++ (tg ++ ct))).drop (16 + 12) = tg ++ ct := by
    rw [← List.drop_drop, edrop, drop_append_exact _ _ _ hn]
  rw [e3, take_append_exact _ _ _ ht]
  have e4 : (salt ++ (nonce ++ (tg ++ ct))).drop (16 + 12 + 16) = ct := by
    rw [← List.drop_drop, e3, drop_append_exact _ _ _ ht]
  rw [e4]
  simp [Option.getD]

/-- C1: for every plaintext byte string and every valid master key (direct
key or passphrase of length at least 8), decrypting an encryption under the
same key string returns the plaintext; the salt-presence classification made
at encrypt time (prepend a 16-byte salt exactly when the key is a
passphrase) is reproduced at decrypt time from the same key string, as
witnessed by the decoded blob length. -/
theorem c1_encrypt_decrypt_roundtrip (p : Bytes) (k : JsString)
    (nonce saltR : Bytes)
    (hp : ∀ b ∈ p, b < 256)
    (hn : nonce.length = 12) (hnb : ∀ b ∈ nonce, b < 256)
    (hs : saltR.length = 16) (hsb : ∀ b ∈ saltR, b < 256)
    (hk : (validateMasterKey k).valid = true) :
    decrypt (encrypt p k nonce saltR) k = .ok p ∧
    (nodeB64Decode (encrypt p k nonce saltR)).length =
      (if isDirectKey k then 0 else SALT_LENGTH) +
        NONCE_LENGTH + TAG_LENGTH + p.length := by
  cases hd : isDirectKey k with
  | true =>
      rw [encrypt_direct_eq hd]
      have hct : ∀ x ∈ gcmXor (directKeyBytes k) nonce 0 p, x < 256 :=
        gcmXor_lt _ nonce 0 p hp
      have hbl : ∀ x ∈ nonce ++ (gcmTag (directKeyBytes k) nonce
          (gcmXor (directKeyBytes k) nonce 0 p) ++
          gcmXor (directKeyBytes k) nonce 0 p), x < 256 := by
        intro x hx
        rcases List.mem_append.mp hx with h1 | h2
        · exact hnb x h1
        rcases List.mem_append.mp h2 with h3 | h4
        · exact gcmTag_lt _ _ _ x h3
        · exact hct x h4
      constructor
      · rw [decrypt_wellformed_direct hd _ _ _ hn (gcmTag_length _ _ _) hbl]
        rw [if_pos rfl, gcmXor_gcmXor]
      · rw [nodeB64Decode_base64Encode _ hbl]
        simp [hn, gcmTag_length, gcmXor_length, NONCE_LENGTH, TAG_LENGTH,
          SALT_LENGTH]
        omega
  | false =>
      rw [encrypt_passphrase_eq hd]
      have hct : ∀ x ∈ gcmXor (scryptSync k saltR) nonce 0 p, x < 256 :=
        gcmXor_lt _ nonce 0 p hp
      have hbl : ∀ x ∈ saltR ++ (nonce ++ (gcmTag (scryptSync k saltR) nonce
          (gcmXor (scryptSync k saltR) nonce 0 p) ++
          gcmXor (scryptSync k saltR) nonce 0 p)), x < 256 := by
        intro x hx
        rcases List.mem_append.mp hx with h0 | h1
        · exact hsb x h0
        rcases List.mem_append.mp h1 with h2 | h3
        · exact hnb x h2
        rcases List.mem_append.mp h3 with h4 | h5
        · exact gcmTag_lt _ _ _ x h4
        · exact hct x h5
      constructor
      · rw [decrypt_wellformed_passphrase hd _ _ _ _ hs hn (gcmTag_length _ _ _) hbl]
        rw [if_pos rfl, gcmXor_gcmXor]
      · rw [nodeB64Decode_base64Encode _ hbl]
        simp [hs, hn, gcmTag_length, gcmXor_length, NONCE_LENGTH, TAG_LENGTH,
          SALT_LENGTH]
        omega

/-- Witness for C1 at a concrete passphrase key, plaintext, nonce and
salt. -/
theorem c1_encrypt_decrypt_roundtrip_witness :
    decrypt (encrypt [104, 105] (("password1").data) (List.range 12)
      (List.range 16)) (("password1").data) = .ok [104, 105] :=
  (c1_encrypt_decrypt_roundtrip [104, 105] (("password1").data)
    (List.range 12) (List.range 16)
    (by decide) (by decide) (by decide) (by decide) (by decide) (by decide)).1

/-! ## Decrypt error characterization (C2) -/

/-- Minimum viable decoded-blob length for the mode selected by the shape of
the supplied master key. -/
def minViableLength (k : JsString) : Nat :=
  if isDirectKey k then NONCE_LENGTH + TAG_LENGTH
  else SALT_LENGTH + NONCE_LENGTH + TAG_LENGTH

/-- Offset of the nonce inside the decoded blob. -/
def blobOffset (k : JsString) : Nat :=
  if isDirectKey k then 0 else SALT_LENGTH

/-- Salt slice of the decoded blob, present exactly in passphrase mode. -/
def blobSaltOf (k : JsString) (combined : Bytes) : Option Bytes :=
  if isDirectKey k then none else some (combined.take SALT_LENGTH)

/-- Key bytes the decryptor uses for a given blob. -/
def blobKey (k : JsString) (combined : Bytes) : Bytes :=
  (getKeyBuffer k (blobSaltOf k combined) []).1

/-- Nonce slice of the decoded blob. -/
def blobNonce (k : JsString) (combined : Bytes) : Bytes :=
  (combined.drop (blobOffset k)).take NONCE_LENGTH

/-- Authentication-tag slice of the decoded blob. -/
def blobTag (k : JsString) (combined : Bytes) : Bytes :=
  (combined.drop (blobOffset k + NONCE_LENGTH)).take TAG_LENGTH

/-- Ciphertext slice of the decoded blob. -/
def blobCt (k : JsString) (combined : Bytes) : Bytes :=
  combined.drop (blobOffset k + NONCE_LENGTH + TAG_LENGTH)

/-- C2: decrypt either returns a plaintext or a DecryptionError (its result
type); it errors whenever the decoded blob is shorter than the minimum
viable length for the mode selected by the key, and whenever the
authentication tag fails to verify against the recomputed tag; a successful
result implies the blob was long enough, the tag verified, and the returned
plaintext is exactly the authenticated decryption of the ciphertext slice —
never a partial or corrupted output, and never any error besides
DecryptionError. -/
theorem c2_decrypt_error_characterization (s k : JsString) :
    ((nodeB64Decode s).length < minViableLength k →
      ∃ e : DecryptionError, decrypt s k = .error e) ∧
    (∀ p, decrypt s k = .ok p →
      minViableLength k ≤ (nodeB64Decode s).length ∧
      blobTag k (nodeB64Decode s) =
        gcmTag (blobKey k (nodeB64Decode s)) (blobNonce k (nodeB64Decode s))
          (blobCt k (nodeB64Decode s)) ∧
      p = gcmXor (blobKey k (nodeB64Decode s)) (blobNonce k (nodeB64Decode s))
          0 (blobCt k (nodeB64Decode s))) ∧
    (minViableLength k ≤ (nodeB64Decode s).length →
      blobTag k (nodeB64Decode s) ≠
        gcmTag (blobKey k (nodeB64Decode s)) (blobNonce k (nodeB64Decode s))
          (blobCt k (nodeB64Decode s)) →
      decrypt s k =
        .error ⟨("Decryption failed: invalid key or corrupted data").data⟩) := by
  classical
  unfold decrypt minViableLength blobTag blobKey blobNonce blobCt blobOffset blobSaltOf
  cases hd : isDirectKey k with
  | true =>
      simp only [hd, if_true, Bool.not_true, Bool.false_and, Bool.false_eq_true,
        if_false, reduceIte]
      by_cases hlen : (nodeB64Decode s).length < NONCE_LENGTH + TAG_LENGTH
      · rw [if_pos hlen]
        refine ⟨fun _ => ⟨_, rfl⟩, fun p hp => by simp at hp, fun h2 _ => ?_⟩
        omega
      · rw [if_neg hlen]
        refine ⟨fun h => absurd h hlen, fun p hp => ?_, fun _ hne => ?_⟩
        · split at hp
          · next heq =>
              refine ⟨by omega, by simpa using heq, ?_⟩
              simp only [Except.ok.injEq] at hp
              simp [← hp]
          · next => simp at hp
        · rw [if_neg (by simpa using hne)]
  | false =>
      simp only [hd, Bool.false_eq_true, if_false, Bool.not_false, Bool.true_and,
        reduceIte]
      by_cases h28 : (nodeB64Decode s).length < NONCE_LENGTH + TAG_LENGTH
      · rw [if_pos h28]
        refine ⟨fun _ => ⟨_, rfl⟩, fun p hp => by simp at hp, fun h2 _ => ?_⟩
        simp only [SALT_LENGTH, NONCE_LENGTH, TAG_LENGTH] at *
        omega
      · rw [if_neg h28]
        by_cases h44 :
            (nodeB64Decode s).length < SALT_LENGTH + NONCE_LENGTH + TAG_LENGTH
        · rw [if_pos (by simpa using h44)]
          refine ⟨fun _ => ⟨_, rfl⟩, fun p hp => by simp at hp, fun h2 _ => ?_⟩
          omega
        · rw [if_neg (by simpa using h44)]
          refine ⟨fun h => absurd h h44, fun p hp => ?_, fun _ hne => ?_⟩
          · split at hp
            · next heq =>
                refine ⟨by omega, by simpa using heq, ?_⟩
                simp only [Except.ok.injEq] at hp
                simp [← hp]
            · next => simp at hp
          · rw [if_neg (by simpa using hne)]

/-- Witness for C2: a four-byte blob is below the minimum viable length for
a passphrase key, so decrypt must error on it. -/
theorem c2_decrypt_error_characterization_witness :
    ∃ e : DecryptionError, decrypt (("AAAA").data) (("password1").data) = .error e :=
  (c2_decrypt_error_characterization (("AAAA").data) (("password1").data)).1
    (by decide)

/-! ## Master-key validation (C10) -/

theorem isHex64_length {s : JsString} (h : isHex64 s = true) : s.length = 64 := by
  unfold isHex64 at h
  simp only [Bool.and_eq_true, beq_iff_eq] at h
  exact h.1

theorem matchesB64Pad1_length {s : JsString} (h : matchesB64Pad1 s = true) :
    43 ≤ s.length := by
  unfold matchesB64Pad1 at h
  simp only [Bool.and_eq_true, beq_iff_eq] at h
  have := h.1.1
  simp only [List.length_take] at this
  omega

theorem matchesB64Pad2_length {s : JsString} (h : matchesB64Pad2 s = true) :
    42 ≤ s.length := by
  unfold matchesB64Pad2 at h
  simp only [Bool.and_eq_true, beq_iff_eq] at h
  have := h.1.1
  simp only [List.length_take] at this
  omega

/-- C10: validateMasterKey accepts exactly the strings of length at least 8
(the dedicated hex and base64 branches never change the accept or reject
outcome since every string they match is at least 42 characters long);
the empty string is rejected with the required-key error and strings of
length 1 to 7 with the passphrase-length error. -/
theorem c10_validateMasterKey_iff_length (s : JsString) :
    ((validateMasterKey s).valid = true ↔ 8 ≤ s.length) ∧
    (s.length = 0 →
      (validateMasterKey s).error = some (("Master key is required").data)) ∧
    (0 < s.length → s.length < 8 →
      (validateMasterKey s).error =
        some (("Master key must be at least 8 characters for passphrase derivation").data)) := by
  unfold validateMasterKey
  by_cases h0 : s.length = 0
  · simp [h0]
  · rw [if_neg h0]
    by_cases hhex : isHex64 s = true
    · have h64 := isHex64_length hhex
      rw [if_pos hhex]
      refine ⟨by simp [h64], fun h => absurd h h0, fun _ h => by omega⟩
    · rw [if_neg hhex]
      by_cases hb : matchesB64Pad1 s = true ∨ matchesB64Pad2 s = true
      · have h42 : 42 ≤ s.length := by
          rcases hb with h | h
          · have := matchesB64Pad1_length h; omega
          · exact matchesB64Pad2_length h
        rw [if_pos (by rcases hb with h | h <;> simp [h])]
        refine ⟨by simp; omega, fun h => absurd h h0, fun _ h => by omega⟩
      · push_neg at hb
        have hb1 : matchesB64Pad1 s = false := by
          cases h : matchesB64Pad1 s
          · rfl
          · exact absurd h hb.1
        have hb2 : matchesB64Pad2 s = false := by
          cases h : matchesB64Pad2 s
          · rfl
          · exact absurd h hb.2
        rw [if_neg (by simp [hb1, hb2])]
        by_cases h8 : s.length < 8
        · rw [if_pos h8]
          refine ⟨by simp; omega, fun h => absurd h h0, fun _ _ => rfl⟩
        · rw [if_neg h8]
          refine ⟨by simp; omega, fun h => absurd h h0, fun _ h => absurd h h8⟩

/-- Witness for C10 at a concrete eight-character passphrase. -/
theorem c10_validateMasterKey_iff_length_witness :
    (validateMasterKey (("longpass").data)).valid = true :=
  (c10_validateMasterKey_iff_length (("longpass").data)).1.mpr (by decide)

/-! ## isEncrypted heuristic (C8) -/

/-- Counterexample to C8 as stated: the canonical 40-character base64
encoding of a 29-byte blob (which is valid base64 and decodes to at least
nonce + tag + 1 = 29 bytes, so the claim requires true) is rejected by
isEncrypted because of its 44-character minimum. -/
theorem c8_isEncrypted_counterexample :
    isEncrypted (base64Encode (List.replicate 29 0)) = false ∧
    (base64Encode (List.replicate 29 0)).length = 40 ∧
    nodeB64Decode (base64Encode (List.replicate 29 0)) = List.replicate 29 0 := by
  decide

/-- C8 amended: on canonical base64 encodings, isEncrypted returns true iff
the encoded byte length is at least 31 (so that the string is at least 44
characters and decodes to at least 29 bytes); consequently it accepts a
blob produced by encrypt iff the blob is at least 31 bytes: always in
passphrase mode, and exactly for plaintexts of at least 3 bytes in
direct-key mode. -/
theorem c8_isEncrypted_amended :
    (∀ (b : Bytes), (∀ x ∈ b, x < 256) →
      isEncrypted (base64Encode b) = decide (31 ≤ b.length)) ∧
    (∀ (p : Bytes) (k : JsString) (nonce saltR : Bytes),
      (∀ x ∈ p, x < 256) →
      nonce.length = 12 → (∀ x ∈ nonce, x < 256) →
      saltR.length = 16 → (∀ x ∈ saltR, x < 256) →
      isEncrypted (encrypt p k nonce saltR) =
        decide (31 ≤ (if isDirectKey k then 0 else SALT_LENGTH) +
          NONCE_LENGTH + TAG_LENGTH + p.length)) := by
  have base : ∀ (b : Bytes), (∀ x ∈ b, x < 256) →
      isEncrypted (base64Encode b) = decide (31 ≤ b.length) := by
    intro b hb
    unfold isEncrypted
    rw [base64Encode_length, nodeB64Decode_base64Encode b hb]
    by_cases h : 31 ≤ b.length
    · rw [if_neg (by omega)]
      simp only [NONCE_LENGTH, TAG_LENGTH]
      rw [decide_eq_true (by omega), decide_eq_true h]
    · rw [if_pos (by omega)]
      rw [decide_eq_false (by omega)]
  refine ⟨base, fun p k nonce saltR hp hn hnb hs hsb => ?_⟩
  cases hd : isDirectKey k with
  | true =>
      rw [encrypt_direct_eq hd]
      rw [base _ (by
        intro x hx
        rcases List.mem_append.mp hx with h1 | h2
        · exact hnb x h1
        rcases List.mem_append.mp h2 with h3 | h4
        · exact gcmTag_lt _ _ _ x h3
        · exact gcmXor_lt _ _ _ _ hp x h4)]
      simp [hn, hd, gcmTag_length, gcmXor_length, NONCE_LENGTH, TAG_LENGTH]
      omega
  | false =>
      rw [encrypt_passphrase_eq hd]
      rw [base _ (by
        intro x hx
        rcases List.mem_append.mp hx with h0 | h1
        · exact hsb x h0
        rcases List.mem_append.mp h1 with h2 | h3
        · exact hnb x h2
        rcases List.mem_append.mp h3 with h4 | h5
        · exact gcmTag_lt _ _ _ x h4
        · exact gcmXor_lt _ _ _ _ hp x h5)]
      simp [hs, hn, hd, gcmTag_length, gcmXor_length, NONCE_LENGTH, TAG_LENGTH,
        SALT_LENGTH]
      omega

/-- Witness for C8 amended: a three-byte plaintext under a concrete direct
hex key yields a blob accepted by isEncrypted. -/
theorem c8_isEncrypted_amended_witness :
    isEncrypted (encrypt [1, 2, 3] (List.replicate 64 'a') (List.range 12)
      (List.range 16)) = true := by
  have h := c8_isEncrypted_amended.2 [1, 2, 3] (List.replicate 64 'a')
    (List.range 12) (List.range 16)
    (by decide) (by decide) (by decide) (by decide) (by decide)
  rw [h]
  decide

/-! ## Multi-key decryption fallback (C3)

Embedding of decryptValue from the encryption wrapper module: candidate
keys are the active master key followed by the configured previous keys;
each is tried in order with decrypt, remembering the last error; the first
success is returned, and when every candidate fails the last error is
rethrown.  The module aborts at load time when no master key is configured,
so the candidate list is never empty. -/

def tryCandidateKeys (ciphertext : JsString) :
    JsString → List JsString → Except DecryptionError Bytes
  | k, [] => decrypt ciphertext k
  | k, k2 :: rest =>
      match decrypt ciphertext k with
      | .ok p => .ok p
      | .error _ => tryCandidateKeys ciphertext k2 rest

/-- Multi-key decryption wrapper decryptValue. -/
def decryptValue (masterKey : JsString) (previousKeys : List JsString)
    (ciphertext : JsString) : Except DecryptionError Bytes :=
  tryCandidateKeys ciphertext masterKey previousKeys

/-- Specified fallback policy, written from the contract wording: return
the first successful per-key result, or the last result when every
candidate fails (the generic failed-to-decrypt error covers the
configured-empty case, unreachable here). -/
def firstOkOrLast : List (Except DecryptionError Bytes) →
    Except DecryptionError Bytes
  | [] => .error ⟨("Failed to decrypt value with configured master keys").data⟩
  | [r] => r
  | r :: r2 :: rest =>
      match r with
      | .ok p => .ok p
      | .error _ => firstOkOrLast (r2 :: rest)

/-- C3: decryptValue tries the active key first, then each previous key in
configured order, returning the plaintext of the first key for which
decrypt succeeds; when decrypt fails for every candidate, it rethrows the
error of the final candidate tried. -/
theorem c3_decryptValue_fallback (m : JsString) (prevs : List JsString)
    (ct : JsString) :
    decryptValue m prevs ct =
      firstOkOrLast ((m :: prevs).map (fun key => decrypt ct key)) := by
  unfold decryptValue
  induction prevs generalizing m with
  | nil => simp [tryCandidateKeys, firstOkOrLast]
  | cons k2 rest ih =>
      simp only [List.map_cons, tryCandidateKeys, firstOkOrLast]
      cases decrypt ct m with
      | ok p => rfl
      | error e =>
          have := ih k2
          simp only [List.map_cons] at this
          exact this

/-! ## Text format codec

Embedding of the .env parser and serializer.  JavaScript regex replace with
a global flag on a literal pattern is modelled by replaceOne (single
character pattern, every occurrence) and replacePair (two-character
pattern, non-overlapping left-to-right occurrences). -/

def singleQuoteChar : Char := Char.ofNat 39

structure EnvEntry where
  key : JsString
  value : JsString
  comment : Option JsString := none
  originalLine : Option JsString := none
deriving DecidableEq, Repr

structure ParseOptions where
  preserveComments : Bool := false
  preserveEmptyLines : Bool := false
deriving DecidableEq, Repr

structure ParseResult where
  entries : List EnvEntry
  map : JsString → Option EnvEntry
  keys : List JsString

/-- Model of the JavaScript String split on a newline character. -/
def splitLines : JsString → List JsString
  | [] => [[]]
  | c :: rest =>
      if c = '\n' then [] :: splitLines rest
      else
        match splitLines rest with
        | l :: ls => (c :: l) :: ls
        | [] => [[c]]

/-- Global replacement of every occurrence of one character by a string. -/
def replaceOne (a : Char) (rep : JsString) (l : JsString) : JsString :=
  l.flatMap (fun c => if c = a then rep else [c])

/-- Global replacement of the non-overlapping left-to-right occurrences of
a two-character pattern by a string. -/
def replacePair (a b : Char) (rep : JsString) : JsString → JsString
  | [] => []
  | [c] => [c]
  | c :: d :: rest =>
      if c = a ∧ d = b then rep ++ replacePair a b rep rest
      else c :: replacePair a b rep (d :: rest)

/-- Test for an occurrence of the two-character inline-comment marker
space-hash. -/
def hasSpaceHash : JsString → Bool
  | c :: d :: rest => (c = ' ' && d = '#') || hasSpaceHash (d :: rest)
  | _ => false

/-- Prefix strictly before the first occurrence of space-hash (the whole
string when there is none). -/
def cutAtSpaceHash : JsString → JsString
  | [] => []
  | [c] => [c]
  | c :: d :: rest =>
      if c = ' ' ∧ d = '#' then [] else c :: cutAtSpaceHash (d :: rest)

/-- Parse a value string, handling quotes and escaping.  Double-quoted
values are unescaped by the four global replacements quote, newline, tab,
backslash, in that textual order; single-quoted values are literal;
unquoted values lose any inline comment and surrounding whitespace. -/
def parseValue (value : JsString) : JsString :=
  let trimmed := trimChars value
  if trimmed.head? = some '"' ∧ trimmed.getLast? = some '"' ∧
      1 < trimmed.length then
    let inner := (trimmed.drop 1).dropLast
    replacePair '\\' '\\' ['\\']
      (replacePair '\\' 't' ['\t']
        (replacePair '\\' 'n' ['\n']
          (replacePair '\\' '"' ['"'] inner)))
  else if trimmed.head? = some singleQuoteChar ∧
      trimmed.getLast? = some singleQuoteChar ∧ 1 < trimmed.length then
    (trimmed.drop 1).dropLast
  else
    if hasSpaceHash trimmed then trimChars (cutAtSpaceHash trimmed)
    else trimmed

structure ParseState where
  entries : List EnvEntry
  map : JsString → Option EnvEntry
  keys : List JsString
  currentComment : JsString

/-- Model of the JavaScript Map set method (replace-or-insert). -/
def mapSet (m : JsString → Option EnvEntry) (k : JsString) (e : EnvEntry) :
    JsString → Option EnvEntry :=
  fun k2 => if k2 = k then some e else m k2

/-- Pending comment attached to the next entry (empty string is falsy and
behaves like no comment). -/
def pendingComment (st : ParseState) : Option JsString :=
  if st.currentComment = [] then none else some st.currentComment

/-- Entry built by the parser for a key=value line found at the first
equals sign. -/
def parsedEntry (st : ParseState) (originalLine : JsString)
    (equalIndex : Nat) : EnvEntry :=
  ⟨trimChars ((trimChars originalLine).take equalIndex),
   parseValue ((trimChars originalLine).drop (equalIndex + 1)),
   pendingComment st,
   some (trimEndChars originalLine)⟩

/-- One iteration of the parseEnv line loop. -/
def parseLine (options : ParseOptions) (st : ParseState)
    (originalLine : JsString) : ParseState :=
  if trimChars originalLine = [] then
    { st with
      entries :=
        if options.preserveEmptyLines then
          st.entries ++ [⟨[], [], pendingComment st, some []⟩]
        else st.entries,
      currentComment := [] }
  else if (trimChars originalLine).head? = some '#' then
    if options.preserveComments then
      { st with currentComment := trimChars ((trimChars originalLine).drop 1) }
    else st
  else
    match (trimChars originalLine).findIdx? (fun c => c = '=') with
    | none => st
    | some equalIndex =>
        { entries := st.entries ++ [parsedEntry st originalLine equalIndex],
          map := mapSet st.map (parsedEntry st originalLine equalIndex).key
            (parsedEntry st originalLine equalIndex),
          keys :=
            if (parsedEntry st originalLine equalIndex).key ∈ st.keys then
              st.keys
            else st.keys ++ [(parsedEntry st originalLine equalIndex).key],
          currentComment := [] }

def initParseState : ParseState := ⟨[], fun _ => none, [], []⟩

/-- Parse .env content into structured entries, a last-write-wins lookup
map and an ordered duplicate-free key list. -/
def parseEnv (content : JsString) (options : ParseOptions) : ParseResult :=
  let st := (splitLines content).foldl (parseLine options) initParseState
  ⟨st.entries, st.map, st.keys⟩

/-- Serialize a value, quoting when it contains whitespace, hash, equals or
a quote character, and escaping backslash, quote, newline, tab in that
textual order. -/
def serializeValue (value : JsString) : JsString :=
  let needsQuotes := value.any (fun c =>
    isJsSpace c || c = '#' || c = '=' || c = singleQuoteChar || c = '"')
  if !needsQuotes then value
  else if value.contains '"' || value.contains '\\' || value.contains '\n' ||
      value.contains '\t' then
    let escaped :=
      replaceOne '\t' ['\\', 't']
        (replaceOne '\n' ['\\', 'n']
          (replaceOne '"' ['\\', '"']
            (replaceOne '\\' ['\\', '\\'] value)))
    '"' :: (escaped ++ ['"'])
  else '"' :: (value ++ ['"'])

/-- Lines emitted for one entry: keyless entries produce their comment line
or a preserved blank line; keyed entries produce an optional comment line
and the key=value line.  A JavaScript-falsy empty comment string behaves
like an absent comment. -/
def serializeEntryLines (entry : EnvEntry) : List JsString :=
  if entry.key = [] then
    match entry.comment with
    | some (c :: cs) => ['#' :: ' ' :: (c :: cs)]
    | _ => if entry.originalLine = some [] then [[]] else []
  else
    (match entry.comment with
     | some (c :: cs) => ['#' :: ' ' :: (c :: cs)]
     | _ => []) ++
    [entry.key ++ '=' :: serializeValue entry.value]

/-- Serialize entries back to .env format: join the emitted lines with
newlines, with a trailing newline when any line was produced. -/
def serializeEnv (entries : List EnvEntry) : JsString :=
  let lines := entries.flatMap serializeEntryLines
  (List.intercalate ['\n'] lines) ++ (if lines = [] then [] else ['\n'])

/-! ## Value escape and unescape analysis (C4)

A double-quoted serialized value is produced by the four character
escapes backslash, quote, newline, tab (in that order) and consumed by the
four pair-unescapes quote, newline, tab, backslash (in that order).  The
unescape misfires exactly when the original value contains a literal
backslash immediately followed by the letter n or t; away from that hazard
the composition is the identity, established stage by stage below. -/

/-- Combined effect of the four escape substitutions on one character. -/
def escF (c : Char) : JsString :=
  if c = '\\' then ['\\', '\\']
  else if c = '"' then ['\\', '"']
  else if c = '\n' then ['\\', 'n']
  else if c = '\t' then ['\\', 't']
  else [c]

/-- Per-character shape after the quote pair-unescape has run. -/
def escQ (c : Char) : JsString :=
  if c = '\\' then ['\\', '\\']
  else if c = '\n' then ['\\', 'n']
  else if c = '\t' then ['\\', 't']
  else [c]

/-- Per-character shape after the newline pair-unescape has run. -/
def escN (c : Char) : JsString :=
  if c = '\\' then ['\\', '\\']
  else if c = '\t' then ['\\', 't']
  else [c]

/-- Per-character shape after the tab pair-unescape has run. -/
def escT (c : Char) : JsString :=
  if c = '\\' then ['\\', '\\'] else [c]

/-- Backslash immediately followed by the letter n or t: the unescape
hazard. -/
def hasEscHazard : JsString → Bool
  | c :: d :: rest => (c = '\\' && (d = 'n' || d = 't')) || hasEscHazard (d :: rest)
  | _ => false

theorem hasEscHazard_tail {c : Char} {v : JsString}
    (h : hasEscHazard (c :: v) = false) : hasEscHazard v = false := by
  cases v with
  | nil => rfl
  | cons d rest =>
      unfold hasEscHazard at h
      simp only [Bool.or_eq_false_iff] at h
      exact h.2

theorem replacePair_nil (a b : Char) (rep : JsString) :
    replacePair a b rep [] = [] := rfl

theorem replacePair_single (a b : Char) (rep : JsString) (c : Char) :
    replacePair a b rep [c] = [c] := rfl

theorem replacePair_cons_of_ne (a b : Char) (rep : JsString) {c : Char}
    (l : JsString) (h : c ≠ a) :
    replacePair a b rep (c :: l) = c :: replacePair a b rep l := by
  cases l with
  | nil => rfl
  | cons d rest =>
      rw [replacePair]
      rw [if_neg (fun hc => h hc.1)]

theorem replacePair_cons2_of_ne (a b : Char) (rep : JsString) (c : Char)
    {d : Char} (l : JsString) (h : d ≠ b) :
    replacePair a b rep (c :: d :: l) = c :: replacePair a b rep (d :: l) := by
  rw [replacePair]
  rw [if_neg (fun hc => h hc.2)]

theorem replacePair_match (a b : Char) (rep : JsString) (l : JsString) :
    replacePair a b rep (a :: b :: l) = rep ++ replacePair a b rep l := by
  rw [replacePair]
  rw [if_pos ⟨rfl, rfl⟩]

/-- Stepping over a lone backslash when the next character cannot complete
the pattern. -/
theorem replacePair_backslash_cons (b : Char) (rep : JsString) (w : JsString)
    (h : ∀ e, w.head? = some e → e ≠ b) :
    replacePair '\\' b rep ('\\' :: w) = '\\' :: replacePair '\\' b rep w := by
  cases w with
  | nil => rfl
  | cons e w2 => exact replacePair_cons2_of_ne _ _ _ _ _ (h e rfl)

theorem bind_escF_head {v : JsString} {e : Char}
    (h : (v.flatMap escF).head? = some e) : e ≠ '"' := by
  cases v with
  | nil => simp at h
  | cons c rest =>
      simp only [List.flatMap_cons] at h
      unfold escF at h
      by_cases h1 : c = '\\'
      · simp [h1] at h; simp [← h]
      by_cases h2 : c = '"'
      · simp [h1, h2] at h; simp [← h]
      by_cases h3 : c = '\n'
      · simp [h1, h2, h3] at h; simp [← h]
      by_cases h4 : c = '\t'
      · simp [h1, h2, h3, h4] at h; simp [← h]
      · simp [h1, h2, h3, h4] at h; simp [← h, h2]

/-- The four escape substitutions compose into a single per-character
expansion. -/
theorem escape_eq_flatMap : ∀ (v : JsString),
    replaceOne '\t' ['\\', 't']
      (replaceOne '\n' ['\\', 'n']
        (replaceOne '"' ['\\', '"']
          (replaceOne '\\' ['\\', '\\'] v))) = v.flatMap escF
  | [] => rfl
  | c :: rest => by
      have ih := escape_eq_flatMap rest
      simp only [replaceOne, List.flatMap_cons, List.flatMap_append] at *
      rw [ih]
      congr 1
      unfold escF
      by_cases h1 : c = '\\'
      · simp [h1]
      by_cases h2 : c = '"'
      · simp [h1, h2]
      by_cases h3 : c = '\n'
      · simp [h1, h2, h3]
      by_cases h4 : c = '\t'
      · simp [h1, h2, h3, h4]
      · simp [h1, h2, h3, h4]

/-- First unescape stage: the quote pair-unescape restores quotes and
leaves the other escapes alone. -/
theorem unescape_quote_stage : ∀ (v : JsString),
    replacePair '\\' '"' ['"'] (v.flatMap escF) = v.flatMap escQ
  | [] => rfl
  | c :: rest => by
      have ih := unescape_quote_stage rest
      simp only [List.flatMap_cons]
      by_cases h1 : c = '\\'
      · subst h1
        rw [show escF '\\' = ['\\', '\\'] from rfl,
          show escQ '\\' = ['\\', '\\'] from rfl]
        simp only [List.cons_append, List.nil_append]
        rw [replacePair_cons2_of_ne _ _ _ _ _ (by decide)]
        rw [replacePair_backslash_cons _ _ _ (fun e he => bind_escF_head he)]
        rw [ih]
      by_cases h2 : c = '"'
      · subst h2
        rw [show escF '"' = ['\\', '"'] from rfl,
          show escQ '"' = ['"'] from rfl]
        simp only [List.cons_append, List.nil_append]
        rw [replacePair_match]
        rw [ih]
        rfl
      by_cases h3 : c = '\n'
      · subst h3
        rw [show escF '\n' = ['\\', 'n'] from rfl,
          show escQ '\n' = ['\\', 'n'] from rfl]
        simp only [List.cons_append, List.nil_append]
        rw [replacePair_cons2_of_ne _ _ _ _ _ (by decide)]
        rw [replacePair_cons_of_ne _ _ _ _ (by decide)]
        rw [ih]
      by_cases h4 : c = '\t'
      · subst h4
        rw [show escF '\t' = ['\\', 't'] from rfl,
          show escQ '\t' = ['\\', 't'] from rfl]
        simp only [List.cons_append, List.nil_append]
        rw [replacePair_cons2_of_ne _ _ _ _ _ (by decide)]
        rw [replacePair_cons_of_ne _ _ _ _ (by decide)]
        rw [ih]
      · rw [show escF c = [c] by unfold escF; rw [if_neg h1, if_neg h2, if_neg h3, if_neg h4],
          show escQ c = [c] by unfold escQ; rw [if_neg h1, if_neg h3, if_neg h4]]
        simp only [List.cons_append, List.nil_append]
        rw [replacePair_cons_of_ne _ _ _ _ h1]
        rw [ih]

theorem hazard_head_of_backslash {rest : JsString}
    (hz : hasEscHazard ('\\' :: rest) = false) :
    ∀ e, rest.head? = some e → e ≠ 'n' ∧ e ≠ 't' := by
  cases rest with
  | nil => intro e he; simp at he
  | cons d r =>
      intro e he
      simp only [List.head?_cons, Option.some.injEq] at he
      subst he
      unfold hasEscHazard at hz
      simp only [Bool.or_eq_false_iff, Bool.and_eq_false_iff,
        decide_eq_false_iff_not, decide_eq_true_eq] at hz
      rcases hz.1 with h | h
      · exact absurd trivial h
      · constructor
        · intro hd; exact h.1 (by simp [hd])
        · intro hd; exact h.2 (by simp [hd])

theorem flatMap_escQ_head_ne {v : JsString}
    (hv : ∀ e, v.head? = some e → e ≠ 'n' ∧ e ≠ 't') :
    ∀ e, (v.flatMap escQ).head? = some e → e ≠ 'n' ∧ e ≠ 't' := by
  cases v with
  | nil => intro e he; simp at he
  | cons c rest =>
      intro e he
      simp only [List.flatMap_cons] at he
      by_cases h1 : c = '\\'
      · rw [h1, show escQ '\\' = ['\\', '\\'] from rfl] at he
        simp only [List.cons_append, List.head?_cons, Option.some.injEq] at he
        subst he; exact ⟨by decide, by decide⟩
      by_cases h3 : c = '\n'
      · rw [h3, show escQ '\n' = ['\\', 'n'] from rfl] at he
        simp only [List.cons_append, List.head?_cons, Option.some.injEq] at he
        subst he; exact ⟨by decide, by decide⟩
      by_cases h4 : c = '\t'
      · rw [h4, show escQ '\t' = ['\\', 't'] from rfl] at he
        simp only [List.cons_append, List.head?_cons, Option.some.injEq] at he
        subst he; exact ⟨by decide, by decide⟩
      · rw [show escQ c = [c] by unfold escQ; rw [if_neg h1, if_neg h3, if_neg h4]] at he
        simp only [List.cons_append, List.head?_cons, Option.some.injEq] at he
        subst he; exact hv c rfl

theorem flatMap_escN_head_ne {v : JsString}
    (hv : ∀ e, v.head? = some e → e ≠ 'n' ∧ e ≠ 't') :
    ∀ e, (v.flatMap escN).head? = some e → e ≠ 't' := by
  cases v with
  | nil => intro e he; simp at he
  | cons c rest =>
      intro e he
      simp only [List.flatMap_cons] at he
      by_cases h1 : c = '\\'
      · rw [h1, show escN '\\' = ['\\', '\\'] from rfl] at he
        simp only [List.cons_append, List.head?_cons, Option.some.injEq] at he
        subst he; decide
      by_cases h4 : c = '\t'
      · rw [h4, show escN '\t' = ['\\', 't'] from rfl] at he
        simp only [List.cons_append, List.head?_cons, Option.some.injEq] at he
        subst he; decide
      · rw [show escN c = [c] by unfold escN; rw [if_neg h1, if_neg h4]] at he
        simp only [List.cons_append, List.head?_cons, Option.some.injEq] at he
        subst he; exact (hv c rfl).2

/-- Second unescape stage: the newline pair-unescape, away from the
backslash-n hazard. -/
theorem unescape_newline_stage : ∀ (v : JsString), hasEscHazard v = false →
    replacePair '\\' 'n' ['\n'] (v.flatMap escQ) = v.flatMap escN
  | [], _ => rfl
  | c :: rest, hz => by
      have ih := unescape_newline_stage rest (hasEscHazard_tail hz)
      simp only [List.flatMap_cons]
      by_cases h1 : c = '\\'
      · subst h1
        rw [show escQ '\\' = ['\\', '\\'] from rfl,
          show escN '\\' = ['\\', '\\'] from rfl]
        simp only [List.cons_append, List.nil_append]
        rw [replacePair_cons2_of_ne _ _ _ _ _ (by decide)]
        rw [replacePair_backslash_cons _ _ _
          (fun e he => (flatMap_escQ_head_ne (hazard_head_of_backslash hz) e he).1)]
        rw [ih]
      by_cases h3 : c = '\n'
      · subst h3
        rw [show escQ '\n' = ['\\', 'n'] from rfl,
          show escN '\n' = ['\n'] from rfl]
        simp only [List.cons_append, List.nil_append]
        rw [replacePair_match]
        rw [ih]
        rfl
      by_cases h4 : c = '\t'
      · subst h4
        rw [show escQ '\t' = ['\\', 't'] from rfl,
          show escN '\t' = ['\\', 't'] from rfl]
        simp only [List.cons_append, List.nil_append]
        rw [replacePair_cons2_of_ne _ _ _ _ _ (by decide)]
        rw [replacePair_cons_of_ne _ _ _ _ (by decide)]
        rw [ih]
      · rw [show escQ c = [c] by unfold escQ; rw [if_neg h1, if_neg h3, if_neg h4],
          show escN c = [c] by unfold escN; rw [if_neg h1, if_neg h4]]
        simp only [List.cons_append, List.nil_append]
        rw [replacePair_cons_of_ne _ _ _ _ h1]
        rw [ih]

/-- Third unescape stage: the tab pair-unescape, away from the backslash-t
hazard. -/
theorem unescape_tab_stage : ∀ (v : JsString), hasEscHazard v = false →
    replacePair '\\' 't' ['\t'] (v.flatMap escN) = v.flatMap escT
  | [], _ => rfl
  | c :: rest, hz => by
      have ih := unescape_tab_stage rest (hasEscHazard_tail hz)
      simp only [List.flatMap_cons]
      by_cases h1 : c = '\\'
      · subst h1
        rw [show escN '\\' = ['\\', '\\'] from rfl,
          show escT '\\' = ['\\', '\\'] from rfl]
        simp only [List.cons_append, List.nil_append]
        rw [replacePair_cons2_of_ne _ _ _ _ _ (by decide)]
        rw [replacePair_backslash_cons _ _ _
          (fun e he => flatMap_escN_head_ne (hazard_head_of_backslash hz) e he)]
        rw [ih]
      by_cases h4 : c = '\t'
      · subst h4
        rw [show escN '\t' = ['\\', 't'] from rfl,
          show escT '\t' = ['\t'] from rfl]
        simp only [List.cons_append, List.nil_append]
        rw [replacePair_match]
        rw [ih]
        rfl
      · rw [show escN c = [c] by unfold escN; rw [if_neg h1, if_neg h4],
          show escT c = [c] by unfold escT; rw [if_neg h1]]
        simp only [List.cons_append, List.nil_append]
        rw [replacePair_cons_of_ne _ _ _ _ h1]
        rw [ih]

/-- Fourth unescape stage: the backslash pair-unescape undoes the doubling
unconditionally. -/
theorem unescape_backslash_stage : ∀ (v : JsString),
    replacePair '\\' '\\' ['\\'] (v.flatMap escT) = v
  | [] => rfl
  | c :: rest => by
      have ih := unescape_backslash_stage rest
      simp only [List.flatMap_cons]
      by_cases h1 : c = '\\'
      · subst h1
        rw [show escT '\\' = ['\\', '\\'] from rfl]
        simp only [List.cons_append, List.nil_append]
        rw [replacePair_match]
        rw [ih]
        rfl
      · rw [show escT c = [c] by unfold escT; rw [if_neg h1]]
        simp only [List.cons_append, List.nil_append]
        rw [replacePair_cons_of_ne _ _ _ _ h1]
        rw [ih]

/-- Unescaping inverts escaping on hazard-free values. -/
theorem unescape_escape (v : JsString) (hz : hasEscHazard v = false) :
    replacePair '\\' '\\' ['\\']
      (replacePair '\\' 't' ['\t']
        (replacePair '\\' 'n' ['\n']
          (replacePair '\\' '"' ['"'] (v.flatMap escF)))) = v := by
  rw [unescape_quote_stage, unescape_newline_stage v hz,
    unescape_tab_stage v hz, unescape_backslash_stage]

theorem replacePair_of_not_mem (a b : Char) (rep : JsString) :
    ∀ (l : JsString), a ∉ l → replacePair a b rep l = l
  | [], _ => rfl
  | [_], _ => rfl
  | c :: d :: rest, h => by
      have hca : c ≠ a := fun hc => h (hc ▸ List.mem_cons_self c (d :: rest))
      rw [replacePair_cons_of_ne _ _ _ _ hca,
        replacePair_of_not_mem a b rep (d :: rest)
          (fun hm => h (List.mem_cons_of_mem c hm))]

/-- The character class of the quoting test in serializeValue. -/
def needsQuotesChar (c : Char) : Bool :=
  isJsSpace c || c = '#' || c = '=' || c = singleQuoteChar || c = '"'

theorem needsQuotes_false_elim {v : JsString}
    (h : v.any needsQuotesChar = false) :
    ∀ c ∈ v, isJsSpace c = false ∧ c ≠ '#' ∧ c ≠ '=' ∧
      c ≠ singleQuoteChar ∧ c ≠ '"' := by
  intro c hc
  have h2 := (List.any_eq_false.mp h) c hc
  unfold needsQuotesChar at h2
  simp only [Bool.or_eq_true, not_or, Bool.not_eq_true, decide_eq_true_eq] at h2
  exact ⟨h2.1.1.1.1, h2.1.1.1.2, h2.1.1.2, h2.1.2, h2.2⟩

theorem serializeValue_unquoted {v : JsString}
    (h : v.any needsQuotesChar = false) : serializeValue v = v := by
  unfold serializeValue
  rw [if_pos]
  unfold needsQuotesChar at h
  simp only [List.any_eq_false] at h
  simpa using h

theorem hasSpaceHash_eq_false :
    ∀ (v : JsString), (∀ c ∈ v, isJsSpace c = false) → hasSpaceHash v = false
  | [], _ => rfl
  | [_], _ => rfl
  | c :: d :: r2, h => by
      unfold hasSpaceHash
      rw [hasSpaceHash_eq_false (d :: r2)
        (fun x hx => h x (List.mem_cons_of_mem c hx))]
      simp only [Bool.or_false, Bool.and_eq_false_iff, decide_eq_false_iff_not]
      left
      intro hc
      have hs := h c (List.mem_cons_self c (d :: r2))
      rw [hc] at hs
      exact absurd hs (by decide)

/-- Round trip of one value through serializeValue and parseValue, for
values free of the backslash-n and backslash-t unescape hazard. -/
theorem parseValue_serializeValue (v : JsString)
    (hz : hasEscHazard v = false) : parseValue (serializeValue v) = v := by
  by_cases hq : v.any needsQuotesChar = true
  · -- quoted
    have hqv : (v.any fun c =>
        isJsSpace c || c = '#' || c = '=' || c = singleQuoteChar || c = '"') = true := by
      simpa [needsQuotesChar] using hq
    unfold serializeValue
    rw [hqv]
    simp only [Bool.not_true, Bool.false_eq_true, if_false]
    by_cases he : (v.contains '"' || v.contains '\\' || v.contains '\n' ||
        v.contains '\t') = true
    · rw [if_pos he]
      rw [escape_eq_flatMap]
      unfold parseValue
      have htrim : trimChars ('"' :: (v.flatMap escF ++ ['"'])) =
          '"' :: (v.flatMap escF ++ ['"']) := by
        apply trimChars_eq_self
        · intro c hc
          simp only [List.head?_cons, Option.some.injEq] at hc
          subst hc; decide
        · intro c hc
          rw [show ('"' :: (v.flatMap escF ++ ['"'])) =
              (('"' :: v.flatMap escF) ++ ['"']) by simp] at hc
          rw [List.getLast?_concat] at hc
          simp only [Option.some.injEq] at hc
          subst hc; decide
      rw [htrim]
      rw [if_pos (by
        refine ⟨rfl, ?_, ?_⟩
        · rw [show ('"' :: (v.flatMap escF ++ ['"'])) =
              (('"' :: v.flatMap escF) ++ ['"']) by simp]
          rw [List.getLast?_concat]
        · simp)]
      have hinner : (('"' :: (v.flatMap escF ++ ['"'])).drop 1).dropLast =
          v.flatMap escF := by
        simp only [List.drop_one, List.tail_cons]
        exact List.dropLast_concat
      rw [hinner]
      exact unescape_escape v hz
    · rw [if_neg he]
      simp only [Bool.or_eq_true, not_or] at he
      have hnb : '\\' ∉ v := fun hm => he.1.1.2 (List.elem_iff.mpr hm)
      unfold parseValue
      have htrim : trimChars ('"' :: (v ++ ['"'])) = '"' :: (v ++ ['"']) := by
        apply trimChars_eq_self
        · intro c hc
          simp only [List.head?_cons, Option.some.injEq] at hc
          subst hc; decide
        · intro c hc
          rw [show ('"' :: (v ++ ['"'])) = (('"' :: v) ++ ['"']) by simp] at hc
          rw [List.getLast?_concat] at hc
          simp only [Option.some.injEq] at hc
          subst hc; decide
      rw [htrim]
      rw [if_pos (by
        refine ⟨rfl, ?_, ?_⟩
        · rw [show ('"' :: (v ++ ['"'])) = (('"' :: v) ++ ['"']) by simp]
          rw [List.getLast?_concat]
        · simp)]
      have hinner : (('"' :: (v ++ ['"'])).drop 1).dropLast = v := by
        simp only [List.drop_one, List.tail_cons]
        exact List.dropLast_concat
      rw [hinner]
      show replacePair '\\' '\\' ['\\']
        (replacePair '\\' 't' ['\t']
          (replacePair '\\' 'n' ['\n']
            (replacePair '\\' '"' ['"'] v))) = v
      rw [replacePair_of_not_mem _ _ _ _ hnb,
        replacePair_of_not_mem _ _ _ _ hnb,
        replacePair_of_not_mem _ _ _ _ hnb,
        replacePair_of_not_mem _ _ _ _ hnb]
  · -- unquoted
    have hq2 : v.any needsQuotesChar = false := by
      cases h : v.any needsQuotesChar
      · rfl
      · exact absurd h hq
    rw [serializeValue_unquoted hq2]
    have hel := needsQuotes_false_elim hq2
    unfold parseValue
    have hns : ∀ c ∈ v, isJsSpace c = false := fun c hc => (hel c hc).1
    rw [trimChars_eq_self_of_no_space v hns]
    rw [if_neg (by
      rintro ⟨hhead, -, -⟩
      cases v with
      | nil => simp at hhead
      | cons c rest =>
          simp only [List.head?_cons, Option.some.injEq] at hhead
          exact (hel c (List.mem_cons_self c rest)).2.2.2.2 hhead)]
    rw [if_neg (by
      rintro ⟨hhead, -, -⟩
      cases v with
      | nil => simp at hhead
      | cons c rest =>
          simp only [List.head?_cons, Option.some.injEq] at hhead
          exact (hel c (List.mem_cons_self c rest)).2.2.2.1 hhead)]
    rw [hasSpaceHash_eq_false v hns]
    simp

/-! ## Serializer and parser composition (C4) -/

theorem dropWhile_eq_self_of_trim {k : JsString} (h : trimChars k = k) :
    k.dropWhile isJsSpace = k ∧ k.reverse.dropWhile isJsSpace = k.reverse := by
  unfold trimChars at h
  have hs1 : (k.dropWhile isJsSpace).length ≤ k.length :=
    (List.dropWhile_suffix _).length_le
  have hs2 : ((k.dropWhile isJsSpace).reverse.dropWhile isJsSpace).length ≤
      (k.dropWhile isJsSpace).length := by
    have := (List.dropWhile_suffix
      (l := (k.dropWhile isJsSpace).reverse) isJsSpace).length_le
    simpa using this
  have hlen : ((k.dropWhile isJsSpace).reverse.dropWhile isJsSpace).length =
      k.length := by
    have : (((k.dropWhile isJsSpace).reverse.dropWhile isJsSpace).reverse).length
        = k.length := by rw [h]
    simpa using this
  have h1 : (k.dropWhile isJsSpace).length = k.length := by omega
  have he1 : k.dropWhile isJsSpace = k :=
    (List.dropWhile_suffix _).eq_of_length h1
  refine ⟨he1, ?_⟩
  have he2 : (k.dropWhile isJsSpace).reverse.dropWhile isJsSpace =
      (k.dropWhile isJsSpace).reverse :=
    (List.dropWhile_suffix _).eq_of_length (by rw [he1] at hlen ⊢; simpa using hlen)
  rw [he1] at he2
  exact he2

theorem head_not_space_of_dropWhile {k : JsString}
    (h : k.dropWhile isJsSpace = k) :
    ∀ c, k.head? = some c → isJsSpace c = false := by
  intro c hc
  cases k with
  | nil => simp at hc
  | cons a t =>
      simp only [List.head?_cons, Option.some.injEq] at hc
      subst hc
      by_contra hsp
      simp only [Bool.not_eq_false] at hsp
      rw [List.dropWhile_cons_of_pos hsp] at h
      have := congrArg List.length h
      have hd : (t.dropWhile isJsSpace).length ≤ t.length :=
        (List.dropWhile_suffix _).length_le
      simp at this
      omega

theorem trim_self_head_last {k : JsString} (h : trimChars k = k) :
    (∀ c, k.head? = some c → isJsSpace c = false) ∧
    (∀ c, k.getLast? = some c → isJsSpace c = false) := by
  obtain ⟨h1, h2⟩ := dropWhile_eq_self_of_trim h
  refine ⟨head_not_space_of_dropWhile h1, ?_⟩
  intro c hc
  exact head_not_space_of_dropWhile h2 c (by rwa [List.head?_reverse])

theorem findIdx?_append_eq {p : Char → Bool} :
    ∀ (l1 : JsString) (c : Char) (l2 : JsString), (∀ x ∈ l1, p x = false) →
      p c = true → (l1 ++ c :: l2).findIdx? p = some l1.length
  | [], c, l2, _, hc => by simp [hc]
  | a :: t, c, l2, h, hc => by
      have ha : p a = false := h a (List.mem_cons_self a t)
      simp only [List.cons_append, List.findIdx?_cons, ha, Bool.false_eq_true,
        if_false, List.findIdx?_succ]
      rw [findIdx?_append_eq t c l2 (fun x hx => h x (List.mem_cons_of_mem a hx)) hc]
      simp

theorem splitLines_append_newline :
    ∀ (l r : JsString), '\n' ∉ l → splitLines (l ++ '\n' :: r) = l :: splitLines r
  | [], r, _ => by simp [splitLines]
  | c :: t, r, h => by
      have hc : c ≠ '\n' := fun hh => h (hh ▸ List.mem_cons_self c t)
      simp only [List.cons_append]
      rw [splitLines]
      rw [if_neg hc]
      rw [splitLines_append_newline t r (fun hm => h (List.mem_cons_of_mem c hm))]

theorem intercalate_nl_cons2 (l l2 : JsString) (rest : List JsString) :
    List.intercalate ['\n'] (l :: l2 :: rest) =
      l ++ '\n' :: List.intercalate ['\n'] (l2 :: rest) := by
  simp [List.intercalate, List.intersperse]

theorem intercalate_nl_single (l : JsString) :
    List.intercalate ['\n'] [l] = l := by
  simp [List.intercalate, List.intersperse]

/-- Splitting the serialized joined lines recovers the lines, plus the empty
line after the trailing newline. -/
theorem splitLines_join :
    ∀ (lines : List JsString), (∀ l ∈ lines, '\n' ∉ l) → lines ≠ [] →
      splitLines (List.intercalate ['\n'] lines ++ ['\n']) = lines ++ [[]]
  | [], _, hne => absurd rfl hne
  | [l], h, _ => by
      rw [intercalate_nl_single]
      rw [splitLines_append_newline l [] (h l (by simp))]
      rfl
  | l :: l2 :: rest, h, _ => by
      rw [intercalate_nl_cons2]
      rw [List.append_assoc]
      simp only [List.cons_append]
      rw [splitLines_append_newline l _ (h l (by simp))]
      rw [splitLines_join (l2 :: rest) (fun x hx => h x (by simp [hx]))
        (by simp)]
      rfl

theorem newline_not_mem_escF (c : Char) : '\n' ∉ escF c := by
  unfold escF
  by_cases h1 : c = '\\'
  · simp [h1]
  by_cases h2 : c = '"'
  · simp [h1, h2]
  by_cases h3 : c = '\n'
  · simp [h1, h2, h3]
  by_cases h4 : c = '\t'
  · simp [h1, h2, h3, h4]
  · simp [h1, h2, h3, h4]
    exact fun hh => h3 hh.symm

theorem serializeValue_no_newline (v : JsString) : '\n' ∉ serializeValue v := by
  unfold serializeValue
  by_cases hq : (v.any fun c =>
      isJsSpace c || c = '#' || c = '=' || c = singleQuoteChar || c = '"') = true
  · rw [hq]
    simp only [Bool.not_true, Bool.false_eq_true, if_false]
    by_cases he : (v.contains '"' || v.contains '\\' || v.contains '\n' ||
        v.contains '\t') = true
    · rw [if_pos he, escape_eq_flatMap]
      intro hm
      rcases List.mem_cons.mp hm with h1 | h2
      · exact absurd h1 (by decide)
      rcases List.mem_append.mp h2 with h3 | h4
      · obtain ⟨c, _, hc⟩ := List.mem_flatMap.mp h3
        exact newline_not_mem_escF c hc
      · simp at h4
    · rw [if_neg he]
      simp only [Bool.or_eq_true, not_or] at he
      intro hm
      rcases List.mem_cons.mp hm with h1 | h2
      · exact absurd h1 (by decide)
      rcases List.mem_append.mp h2 with h3 | h4
      · exact he.1.2 (List.elem_iff.mpr h3)
      · simp at h4
  · rw [if_pos (by
      cases h : (v.any fun c =>
          isJsSpace c || c = '#' || c = '=' || c = singleQuoteChar || c = '"')
      · rfl
      · exact absurd h hq)]
    intro hm
    have := List.any_eq_false.mp (by
      cases h : (v.any fun c =>
          isJsSpace c || c = '#' || c = '=' || c = singleQuoteChar || c = '"')
      · rfl
      · exact absurd h hq) '\n' hm
    simp [isJsSpace] at this

theorem serializeValue_last_not_space (v : JsString) :
    ∀ c, (serializeValue v).getLast? = some c → isJsSpace c = false := by
  unfold serializeValue
  by_cases hq : (v.any fun c =>
      isJsSpace c || c = '#' || c = '=' || c = singleQuoteChar || c = '"') = true
  · rw [hq]
    simp only [Bool.not_true, Bool.false_eq_true, if_false]
    by_cases he : (v.contains '"' || v.contains '\\' || v.contains '\n' ||
        v.contains '\t') = true
    · rw [if_pos he]
      intro c hc
      rw [show ('"' :: (replaceOne '\t' ['\\', 't'] (replaceOne '\n' ['\\', 'n']
          (replaceOne '"' ['\\', '"'] (replaceOne '\\' ['\\', '\\'] v))) ++ ['"'])) =
          (('"' :: replaceOne '\t' ['\\', 't'] (replaceOne '\n' ['\\', 'n']
          (replaceOne '"' ['\\', '"'] (replaceOne '\\' ['\\', '\\'] v)))) ++ ['"'])
        by simp] at hc
      rw [List.getLast?_concat] at hc
      simp only [Option.some.injEq] at hc
      subst hc; decide
    · rw [if_neg he]
      intro c hc
      rw [show ('"' :: (v ++ ['"'])) = (('"' :: v) ++ ['"']) by simp] at hc
      rw [List.getLast?_concat] at hc
      simp only [Option.some.injEq] at hc
      subst hc; decide
  · rw [if_pos (by
      cases h : (v.any fun c =>
          isJsSpace c || c = '#' || c = '=' || c = singleQuoteChar || c = '"')
      · rfl
      · exact absurd h hq)]
    intro c hc
    obtain ⟨hne, he⟩ := List.mem_getLast?_eq_getLast (Option.mem_def.mpr hc)
    have hm : c ∈ v := he ▸ List.getLast_mem hne
    have := List.any_eq_false.mp (by
      cases h : (v.any fun c =>
          isJsSpace c || c = '#' || c = '=' || c = singleQuoteChar || c = '"')
      · rfl
      · exact absurd h hq) c hm
    simp only [Bool.or_eq_true, not_or, Bool.not_eq_true] at this
    exact this.1.1.1.1

theorem dropWhile_append_singleton {p : Char → Bool} {c : Char}
    (hc : p c = false) :
    ∀ (l : JsString), (l ++ [c]).dropWhile p = l.dropWhile p ++ [c]
  | [] => by simp [List.dropWhile, hc]
  | a :: t => by
      by_cases ha : p a = true
      · simp only [List.cons_append, List.dropWhile_cons_of_pos ha]
        exact dropWhile_append_singleton hc t
      · rw [List.cons_append, List.dropWhile_cons_of_neg ha,
          List.dropWhile_cons_of_neg ha]
        simp

theorem trimChars_cons_of_not_space {c : Char} (t : JsString)
    (hc : isJsSpace c = false) :
    trimChars (c :: t) = c :: trimEndChars t := by
  unfold trimChars trimEndChars
  rw [List.dropWhile_cons_of_neg (by simp [hc])]
  rw [List.reverse_cons]
  rw [dropWhile_append_singleton hc]
  rw [List.reverse_append]
  rfl

/-- A comment line is ignored by the parser when comments are not
preserved. -/
theorem parseLine_comment (st : ParseState) (cm : JsString) :
    parseLine ⟨false, false⟩ st ('#' :: cm) = st := by
  unfold parseLine
  rw [trimChars_cons_of_not_space cm (by decide)]
  rw [if_neg (by simp)]
  rw [if_pos (show ('#' :: trimEndChars cm).head? = some '#' from rfl)]
  rfl

/-- A blank line only resets the pending comment when empty lines are not
preserved. -/
theorem parseLine_empty_map (st : ParseState) (l : JsString)
    (h : trimChars l = []) :
    parseLine ⟨false, false⟩ st l = { st with currentComment := [] } := by
  unfold parseLine
  rw [h]
  rfl

/-- Keys that the serializer and parser transport faithfully: nonempty,
trim-invariant, free of the equals separator and newlines, and not starting
a comment. -/
def validSerKey (k : JsString) : Prop :=
  k ≠ [] ∧ trimChars k = k ∧ '=' ∉ k ∧ '\n' ∉ k ∧ k.head? ≠ some '#'

/-- Parsing the serialized key=value line of an entry recovers the key and
value and updates the lookup map accordingly. -/
theorem parseLine_kv (st : ParseState) (k v : JsString)
    (hk : validSerKey k) (hzv : hasEscHazard v = false) :
    parseLine ⟨false, false⟩ st (k ++ '=' :: serializeValue v) =
      { entries := st.entries ++ [⟨k, v,
          (if st.currentComment = [] then none else some st.currentComment),
          some (trimEndChars (k ++ '=' :: serializeValue v))⟩],
        map := mapSet st.map k ⟨k, v,
          (if st.currentComment = [] then none else some st.currentComment),
          some (trimEndChars (k ++ '=' :: serializeValue v))⟩,
        keys := if k ∈ st.keys then st.keys else st.keys ++ [k],
        currentComment := [] } := by
  obtain ⟨hne, htr, heq, hnl, hhash⟩ := hk
  have hhead := (trim_self_head_last htr).1
  have hline_trim : trimChars (k ++ '=' :: serializeValue v) =
      k ++ '=' :: serializeValue v := by
    apply trimChars_eq_self
    · intro c hc
      cases k with
      | nil => exact absurd rfl hne
      | cons a t =>
          simp only [List.cons_append, List.head?_cons, Option.some.injEq] at hc
          exact hhead c (by simp [← hc])
    · intro c hc
      rw [List.getLast?_append_of_ne_nil _ (by simp)] at hc
      cases hsv : serializeValue v with
      | nil =>
          rw [hsv] at hc
          simp only [List.getLast?_singleton, Option.some.injEq] at hc
          subst hc; decide
      | cons b sb =>
          rw [hsv, List.getLast?_cons_cons] at hc
          rw [← hsv] at hc
          exact serializeValue_last_not_space v c hc
  unfold parseLine
  rw [hline_trim]
  rw [if_neg (by
    intro hemp
    exact hne (List.append_eq_nil.mp hemp).1)]
  rw [if_neg (by
    intro hh
    apply hhash
    cases k with
    | nil => exact absurd rfl hne
    | cons a t =>
        simp only [List.cons_append, List.head?_cons, Option.some.injEq] at hh
        simp [hh])]
  rw [findIdx?_append_eq k '=' (serializeValue v)
    (fun x hx => by
      simp only [decide_eq_false_iff_not]
      exact fun hh => heq (hh ▸ hx))
    (by decide)]
  have hkey : trimChars ((k ++ '=' :: serializeValue v).take k.length) = k := by
    rw [take_append_exact _ _ _ rfl]
    exact htr
  have hval : (k ++ '=' :: serializeValue v).drop (k.length + 1) =
      serializeValue v := by
    rw [← List.drop_drop, drop_append_exact _ _ _ rfl]
    simp
  have hpe2 : parsedEntry st (k ++ '=' :: serializeValue v) k.length =
      ⟨k, v, (if st.currentComment = [] then none else some st.currentComment),
        some (trimEndChars (k ++ '=' :: serializeValue v))⟩ := by
    unfold parsedEntry pendingComment
    rw [hline_trim, hkey, hval, parseValue_serializeValue v hzv]
  simp only [hpe2]


/-- Value of the last entry carrying a key, the semantics last-write-wins
serialization should reproduce. -/
def expectedVal (entries : List EnvEntry) (k : JsString) : Option JsString :=
  ((entries.filter (fun e => e.key == k)).getLast?).map EnvEntry.value

theorem foldl_block (st : ParseState) (e : EnvEntry)
    (hk : validSerKey e.key) (hzv : hasEscHazard e.value = false) :
    ∃ pe : EnvEntry, pe.key = e.key ∧ pe.value = e.value ∧
      List.foldl (parseLine ⟨false, false⟩) st (serializeEntryLines e) =
        { entries := st.entries ++ [pe],
          map := mapSet st.map e.key pe,
          keys := if e.key ∈ st.keys then st.keys else st.keys ++ [e.key],
          currentComment := [] } := by
  unfold serializeEntryLines
  rw [if_neg hk.1]
  refine ⟨⟨e.key, e.value,
    (if st.currentComment = [] then none else some st.currentComment),
    some (trimEndChars (e.key ++ '=' :: serializeValue e.value))⟩, rfl, rfl, ?_⟩
  cases hcm : e.comment with
  | none =>
      simp only [List.nil_append, List.foldl_cons, List.foldl_nil]
      exact parseLine_kv st e.key e.value hk hzv
  | some cm =>
      cases cm with
      | nil =>
          simp only [List.nil_append, List.foldl_cons, List.foldl_nil]
          exact parseLine_kv st e.key e.value hk hzv
      | cons c cs =>
          simp only [List.cons_append, List.nil_append, List.foldl_cons,
            List.foldl_nil]
          rw [parseLine_comment st (' ' :: c :: cs)]
          exact parseLine_kv st e.key e.value hk hzv

theorem foldl_serialize_map :
    ∀ (entries : List EnvEntry) (st : ParseState),
      (∀ e ∈ entries, validSerKey e.key) →
      (∀ e ∈ entries, hasEscHazard e.value = false) →
      ∀ k, ((List.foldl (parseLine ⟨false, false⟩) st
          (entries.flatMap serializeEntryLines)).map k).map EnvEntry.value =
        (expectedVal entries k).or ((st.map k).map EnvEntry.value)
  | [], st, _, _ => by
      intro k
      simp [expectedVal]
  | e :: rest, st, hk, hv => by
      intro k
      simp only [List.flatMap_cons, List.foldl_append]
      obtain ⟨pe, hpek, hpev, hblock⟩ :=
        foldl_block st e (hk e (by simp)) (hv e (by simp))
      rw [hblock]
      rw [foldl_serialize_map rest _
        (fun x hx => hk x (by simp [hx]))
        (fun x hx => hv x (by simp [hx])) k]
      have hmap : mapSet st.map e.key pe k =
          if k = e.key then some pe else st.map k := rfl
      unfold expectedVal
      rw [List.filter_cons]
      by_cases hkk : k = e.key
      · have hbeq : (e.key == k) = true := by simp [hkk]
        rw [hbeq]
        simp only [if_true, reduceIte]
        cases hfl : (rest.filter (fun e2 => e2.key == k)).getLast? with
        | some e2 =>
            have hne2 : rest.filter (fun e2 => e2.key == k) ≠ [] := by
              intro hemp
              rw [hemp] at hfl
              simp at hfl
            rw [show (e :: rest.filter (fun e2 => e2.key == k)) =
                ([e] ++ rest.filter (fun e2 => e2.key == k)) from rfl]
            rw [List.getLast?_append_of_ne_nil _ hne2, hfl]
            simp
        | none =>
            have hemp : rest.filter (fun e2 => e2.key == k) = [] :=
              List.getLast?_eq_none_iff.mp hfl
            rw [hemp, hmap, if_pos hkk]
            simp [hpev]
      · have hbeq : (e.key == k) = false := by
          simp only [beq_eq_false_iff_ne, ne_eq]
          exact fun hh => hkk hh.symm
        rw [hbeq]
        simp only [Bool.false_eq_true, if_false, reduceIte]
        rw [hmap, if_neg hkk]

theorem serializeEntryLines_no_newline (e : EnvEntry) (hk : validSerKey e.key)
    (hc : ∀ cm, e.comment = some cm → '\n' ∉ cm) :
    ∀ l ∈ serializeEntryLines e, '\n' ∉ l := by
  unfold serializeEntryLines
  rw [if_neg hk.1]
  intro l hl
  have hkv : '\n' ∉ e.key ++ '=' :: serializeValue e.value := by
    intro hm
    rcases List.mem_append.mp hm with h1 | h2
    · exact hk.2.2.2.1 h1
    rcases List.mem_cons.mp h2 with h3 | h4
    · exact absurd h3 (by decide)
    · exact serializeValue_no_newline e.value h4
  cases hcm : e.comment with
  | none =>
      rw [hcm] at hl
      simp only [List.nil_append, List.mem_singleton] at hl
      subst hl
      exact hkv
  | some cm =>
      cases cm with
      | nil =>
          rw [hcm] at hl
          simp only [List.nil_append, List.mem_singleton] at hl
          subst hl
          exact hkv
      | cons c cs =>
          rw [hcm] at hl
          simp only [List.cons_append, List.mem_cons, List.mem_singleton] at hl
          rcases hl with h1 | h2
          · subst h1
            intro hm
            rcases List.mem_cons.mp hm with h3 | h4
            · exact absurd h3 (by decide)
            rcases List.mem_cons.mp h4 with h5 | h6
            · exact absurd h5 (by decide)
            · exact hc (c :: cs) hcm h6
          · simp only [List.nil_append, List.mem_singleton] at h2
            subst h2
            exact hkv

theorem serializeEntryLines_ne_nil (e : EnvEntry) (hk : validSerKey e.key) :
    serializeEntryLines e ≠ [] := by
  unfold serializeEntryLines
  rw [if_neg hk.1]
  cases e.comment with
  | none => simp
  | some cm => cases cm <;> simp

/-- C4 amended: parsing the serialization reproduces the last-write-wins
key-to-value map, for entries with grammar-valid keys, newline-free
comments, and values free of a literal backslash immediately followed by
the letter n or t (the unescape-order hazard). -/
theorem c4_serialize_parse_roundtrip (entries : List EnvEntry)
    (hk : ∀ e ∈ entries, validSerKey e.key)
    (hv : ∀ e ∈ entries, hasEscHazard e.value = false)
    (hc : ∀ e ∈ entries, ∀ cm, e.comment = some cm → '\n' ∉ cm) :
    ∀ k, ((parseEnv (serializeEnv entries) ⟨false, false⟩).map k).map
        EnvEntry.value = expectedVal entries k := by
  intro k
  have hser : serializeEnv entries =
      List.intercalate ['\n'] (entries.flatMap serializeEntryLines) ++
        (if entries.flatMap serializeEntryLines = [] then []
         else ['\n']) := rfl
  have hparse : (parseEnv (serializeEnv entries) ⟨false, false⟩).map =
      ((splitLines (serializeEnv entries)).foldl
        (parseLine ⟨false, false⟩) initParseState).map := rfl
  rw [hparse]
  cases hle : entries.flatMap serializeEntryLines with
  | nil =>
      have hent : entries = [] := by
        cases hent2 : entries with
        | nil => rfl
        | cons e rest =>
            exfalso
            rw [hent2, List.flatMap_cons] at hle
            exact serializeEntryLines_ne_nil e (hk e (by rw [hent2]; simp))
              (List.append_eq_nil.mp hle).1
      subst hent
      rfl
  | cons l ls =>
      have hlnn : ∀ l2 ∈ entries.flatMap serializeEntryLines, '\n' ∉ l2 := by
        intro l2 hl2
        obtain ⟨e, he, hl3⟩ := List.mem_flatMap.mp hl2
        exact serializeEntryLines_no_newline e (hk e he) (hc e he) l2 hl3
      rw [hser, hle]
      rw [if_neg (by simp)]
      rw [splitLines_join (l :: ls) (hle ▸ hlnn) (by simp)]
      rw [List.foldl_append]
      simp only [List.foldl_cons, List.foldl_nil]
      rw [parseLine_empty_map _ [] rfl]
      have hmain := foldl_serialize_map entries initParseState hk hv k
      rw [hle] at hmain
      show ((List.foldl (parseLine ⟨false, false⟩) initParseState
        (l :: ls)).map k).map EnvEntry.value = expectedVal entries k
      rw [hmain]
      simp [initParseState]

/-- Counterexample to C4 as stated: the value space-backslash-n survives
serialization quoted as space-backslash-backslash-n, but the fixed unescape
order turns the doubled backslash and the following letter n into
backslash-newline, so the parsed value differs from the original. -/
theorem c4_roundtrip_counterexample :
    ((parseEnv (serializeEnv [⟨("A").data, [' ', '\\', 'n'], none, none⟩])
      ⟨false, false⟩).map (("A").data)).map EnvEntry.value =
      some [' ', '\\', '\n'] ∧
    ([' ', '\\', '\n'] : JsString) ≠ [' ', '\\', 'n'] := by
  constructor
  · rfl
  · decide

/-- Witness for C4 amended at a concrete entry whose value contains a
space. -/
theorem c4_serialize_parse_roundtrip_witness :
    ((parseEnv (serializeEnv [⟨("A").data, ("hello world").data, none, none⟩])
      ⟨false, false⟩).map (("A").data)).map EnvEntry.value =
      expectedVal [⟨("A").data, ("hello world").data, none, none⟩]
        (("A").data) :=
  c4_serialize_parse_roundtrip _
    (by
      intro e he
      simp only [List.mem_singleton] at he
      subst he
      exact ⟨by decide, by decide, by decide, by decide, by decide⟩)
    (by
      intro e he
      simp only [List.mem_singleton] at he
      subst he
      decide)
    (by
      intro e he
      simp only [List.mem_singleton] at he
      subst he
      intro cm hcm
      simp at hcm)
    (("A").data)

/-! ## Parser invariants (C9) -/

theorem findIdx?_take_false {p : Char → Bool} :
    ∀ (l : JsString) (i : Nat), List.findIdx? p l = some i →
      ∀ x ∈ l.take i, p x = false
  | [], _, h => by simp at h
  | a :: t, i, h => by
      rw [List.findIdx?_cons] at h
      by_cases hpa : p a = true
      · rw [if_pos hpa] at h
        simp only [Option.some.injEq] at h
        subst h
        simp
      · have hpa2 : p a = false := by
          cases hp : p a
          · rfl
          · exact absurd hp hpa
        rw [if_neg (by simp [hpa2])] at h
        rw [List.findIdx?_succ] at h
        cases hft : List.findIdx? p t with
        | none => rw [hft] at h; simp at h
        | some j =>
            rw [hft] at h
            simp at h
            subst h
            intro x hx
            rw [List.take_succ_cons] at hx
            rcases List.mem_cons.mp hx with h1 | h2
            · exact h1 ▸ hpa2
            · exact findIdx?_take_false t j hft x h2

theorem trimChars_subset {l : JsString} : ∀ x ∈ trimChars l, x ∈ l := by
  intro x hx
  unfold trimChars at hx
  rw [List.mem_reverse] at hx
  have h1 := (List.dropWhile_sublist
    (l := (l.dropWhile isJsSpace).reverse) isJsSpace).mem hx
  rw [List.mem_reverse] at h1
  exact (List.dropWhile_sublist isJsSpace).mem h1

/-- Invariant maintained by the parser state: no equals sign in any
produced key, duplicate-free key list, the map holding the last occurrence,
and map domain matching the key list. -/
def parseStateInv (st : ParseState) : Prop :=
  (∀ e ∈ st.entries, '=' ∉ e.key) ∧
  st.keys.Nodup ∧
  (∀ k, k ≠ [] →
    st.map k = (st.entries.filter (fun e => e.key == k)).getLast?) ∧
  (∀ k, k ∈ st.keys ↔ ∃ e, st.map k = some e)

theorem filter_singleton_of_ne {e : EnvEntry} {k : JsString} (h : e.key ≠ k) :
    List.filter (fun e2 => e2.key == k) [e] = [] := by
  simp only [List.filter_cons, List.filter_nil]
  rw [if_neg (by simpa using h)]

theorem filter_singleton_of_eq {e : EnvEntry} {k : JsString} (h : e.key = k) :
    List.filter (fun e2 => e2.key == k) [e] = [e] := by
  simp only [List.filter_cons, List.filter_nil]
  rw [if_pos (by simpa using h)]

theorem parseLine_preserves_inv (opts : ParseOptions) (st : ParseState)
    (line : JsString) (hinv : parseStateInv st) :
    parseStateInv (parseLine opts st line) := by
  obtain ⟨hie, hik, him, hid⟩ := hinv
  unfold parseLine
  by_cases hemp : trimChars line = []
  · rw [if_pos hemp]
    refine ⟨?_, hik, ?_, hid⟩
    · intro e he
      by_cases hpe : opts.preserveEmptyLines = true
      · rw [if_pos hpe] at he
        rcases List.mem_append.mp he with h1 | h2
        · exact hie e h1
        · simp only [List.mem_singleton] at h2
          subst h2
          simp
      · rw [if_neg hpe] at he
        exact hie e he
    · intro k hk
      by_cases hpe : opts.preserveEmptyLines = true
      · rw [if_pos hpe]
        rw [List.filter_append,
          filter_singleton_of_ne (fun hh => hk hh.symm), List.append_nil]
        exact him k hk
      · rw [if_neg hpe]
        exact him k hk
  · rw [if_neg hemp]
    by_cases hcom : (trimChars line).head? = some '#'
    · rw [if_pos hcom]
      by_cases hpc : opts.preserveComments = true
      · rw [if_pos hpc]
        exact ⟨hie, hik, him, hid⟩
      · rw [if_neg hpc]
        exact ⟨hie, hik, him, hid⟩
    · rw [if_neg hcom]
      cases hfi : (trimChars line).findIdx? (fun c => c = '=') with
      | none => exact ⟨hie, hik, him, hid⟩
      | some equalIndex =>
          have hknoeq : '=' ∉ (parsedEntry st line equalIndex).key := by
            intro hm
            have h2 := trimChars_subset _ hm
            have h3 := findIdx?_take_false _ _ hfi '=' h2
            simp at h3
          simp only []
          refine ⟨?_, ?_, ?_, ?_⟩
          · intro e he
            rcases List.mem_append.mp he with h1 | h2
            · exact hie e h1
            · simp only [List.mem_singleton] at h2
              subst h2
              exact hknoeq
          · by_cases hkin : (parsedEntry st line equalIndex).key ∈ st.keys
            · rw [if_pos hkin]
              exact hik
            · rw [if_neg hkin]
              show (st.keys ++ [(parsedEntry st line equalIndex).key]).Nodup
              rw [List.nodup_append]
              refine ⟨hik, List.nodup_singleton _, ?_⟩
              intro a ha hb
              simp only [List.mem_singleton] at hb
              exact hkin (hb ▸ ha)
          · intro k hk
            rw [List.filter_append]
            show mapSet st.map (parsedEntry st line equalIndex).key
              (parsedEntry st line equalIndex) k = _
            unfold mapSet
            by_cases hkk : k = (parsedEntry st line equalIndex).key
            · rw [if_pos hkk]
              rw [filter_singleton_of_eq hkk.symm]
              rw [List.getLast?_append_of_ne_nil _ (by simp)]
              simp
            · rw [if_neg hkk]
              rw [filter_singleton_of_ne (fun hh => hkk hh.symm),
                List.append_nil]
              exact him k hk
          · intro k
            show k ∈ (if (parsedEntry st line equalIndex).key ∈ st.keys
                then st.keys
                else st.keys ++ [(parsedEntry st line equalIndex).key]) ↔ _
            constructor
            · intro hk
              by_cases hkk : k = (parsedEntry st line equalIndex).key
              · exact ⟨parsedEntry st line equalIndex, by
                  show mapSet _ _ _ k = _
                  unfold mapSet
                  rw [if_pos hkk]⟩
              · have hk2 : k ∈ st.keys := by
                  by_cases hkin : (parsedEntry st line equalIndex).key ∈ st.keys
                  · rwa [if_pos hkin] at hk
                  · rw [if_neg hkin] at hk
                    rcases List.mem_append.mp hk with h1 | h2
                    · exact h1
                    · simp only [List.mem_singleton] at h2
                      exact absurd h2 hkk
                obtain ⟨e, he⟩ := (hid k).mp hk2
                refine ⟨e, ?_⟩
                show mapSet _ _ _ k = _
                unfold mapSet
                rw [if_neg hkk]
                exact he
            · rintro ⟨e, he⟩
              have he2 : mapSet st.map (parsedEntry st line equalIndex).key
                  (parsedEntry st line equalIndex) k = some e := he
              by_cases hkk : k = (parsedEntry st line equalIndex).key
              · by_cases hkin : (parsedEntry st line equalIndex).key ∈ st.keys
                · rw [if_pos hkin]
                  exact hkk ▸ hkin
                · rw [if_neg hkin]
                  exact List.mem_append.mpr (Or.inr (by simp [hkk]))
              · rw [show mapSet st.map (parsedEntry st line equalIndex).key
                    (parsedEntry st line equalIndex) k = st.map k by
                  unfold mapSet
                  rw [if_neg hkk]] at he2
                have hk2 : k ∈ st.keys := (hid k).mpr ⟨e, he2⟩
                by_cases hkin : (parsedEntry st line equalIndex).key ∈ st.keys
                · rwa [if_pos hkin]
                · rw [if_neg hkin]
                  exact List.mem_append.mpr (Or.inl hk2)



theorem dropWhile_head_not (p : Char → Bool) :
    ∀ (l : JsString) (c : Char), (l.dropWhile p).head? = some c → p c = false
  | [], c => by simp
  | a :: t, c => by
      by_cases h : p a = true
      · rw [List.dropWhile_cons_of_pos h]
        exact dropWhile_head_not p t c
      · rw [List.dropWhile_cons_of_neg h]
        intro hc
        simp only [List.head?_cons, Option.some.injEq] at hc
        subst hc
        exact Bool.eq_false_iff.mpr h

theorem trimEndChars_head_eq (l : JsString) (c : Char)
    (h : (trimEndChars l).head? = some c) : l.head? = some c := by
  unfold trimEndChars at h
  cases he : (l.reverse.dropWhile isJsSpace).reverse with
  | nil => rw [he] at h; simp at h
  | cons a t =>
      rw [he] at h
      simp only [List.head?_cons, Option.some.injEq] at h
      subst h
      have hl : l = (a :: t) ++ (l.reverse.takeWhile isJsSpace).reverse := by
        calc l = l.reverse.reverse := (List.reverse_reverse l).symm
        _ = ((l.reverse.takeWhile isJsSpace) ++
              (l.reverse.dropWhile isJsSpace)).reverse := by
              rw [List.takeWhile_append_dropWhile]
        _ = (l.reverse.dropWhile isJsSpace).reverse ++
              (l.reverse.takeWhile isJsSpace).reverse := by
              rw [List.reverse_append]
        _ = (a :: t) ++ (l.reverse.takeWhile isJsSpace).reverse := by rw [he]
      rw [hl]
      simp

theorem trimChars_head_not_space (l : JsString) (c : Char)
    (h : (trimChars l).head? = some c) : isJsSpace c = false := by
  have h2 : (trimEndChars (l.dropWhile isJsSpace)).head? = some c := h
  have h3 := trimEndChars_head_eq _ _ h2
  exact dropWhile_head_not isJsSpace l c h3

/-- The key and value a single line contributes to the entries list: a
blank line contributes the empty placeholder pair when empty lines are
preserved, a comment line or a line without an equals sign contributes
nothing, and a key=value line contributes its trimmed key and parsed
value. -/
def lineEntryKV (opts : ParseOptions) (line : JsString) :
    Option (JsString × JsString) :=
  if trimChars line = [] then
    if opts.preserveEmptyLines then some ([], []) else none
  else if (trimChars line).head? = some '#' then none
  else
    match (trimChars line).findIdx? (fun c => c = '=') with
    | none => none
    | some equalIndex =>
        some (trimChars ((trimChars line).take equalIndex),
          parseValue ((trimChars line).drop (equalIndex + 1)))

theorem parseLine_entries_kv (opts : ParseOptions) (st : ParseState)
    (line : JsString) :
    (parseLine opts st line).entries.map (fun e => (e.key, e.value)) =
      st.entries.map (fun e => (e.key, e.value)) ++
        (lineEntryKV opts line).toList := by
  unfold parseLine lineEntryKV
  by_cases hemp : trimChars line = []
  · rw [if_pos hemp, if_pos hemp]
    by_cases hpe : opts.preserveEmptyLines = true
    · simp [hpe]
    · simp [hpe]
  · rw [if_neg hemp, if_neg hemp]
    by_cases hcom : (trimChars line).head? = some '#'
    · rw [if_pos hcom, if_pos hcom]
      by_cases hpc : opts.preserveComments = true
      · simp [hpc]
      · simp [hpc]
    · rw [if_neg hcom, if_neg hcom]
      cases hfi : (trimChars line).findIdx? (fun c => c = '=') with
      | none => simp
      | some equalIndex => simp [parsedEntry]

theorem foldl_parseLine_entries_kv (opts : ParseOptions) :
    ∀ (lines : List JsString) (st : ParseState),
      ((lines.foldl (parseLine opts) st).entries).map
          (fun e => (e.key, e.value)) =
        st.entries.map (fun e => (e.key, e.value)) ++
          lines.filterMap (lineEntryKV opts)
  | [], st => by simp
  | l :: ls, st => by
      rw [List.foldl_cons,
        foldl_parseLine_entries_kv opts ls (parseLine opts st l),
        parseLine_entries_kv, List.filterMap_cons]
      cases lineEntryKV opts l <;> simp

theorem lineEntryKV_key_empty_iff (opts : ParseOptions) (line k v : JsString)
    (h : lineEntryKV opts line = some (k, v)) :
    (k = [] ↔ ((trimChars line).head? = some '=' ∨ trimChars line = [])) := by
  unfold lineEntryKV at h
  by_cases hemp : trimChars line = []
  · rw [if_pos hemp] at h
    by_cases hpe : opts.preserveEmptyLines = true
    · rw [if_pos hpe] at h
      simp only [Option.some.injEq, Prod.mk.injEq] at h
      constructor
      · intro _
        exact Or.inr hemp
      · intro _
        exact h.1.symm
    · rw [if_neg hpe] at h
      exact absurd h (by simp)
  · rw [if_neg hemp] at h
    by_cases hcom : (trimChars line).head? = some '#'
    · rw [if_pos hcom] at h
      exact absurd h (by simp)
    · rw [if_neg hcom] at h
      cases hfi : (trimChars line).findIdx? (fun c => c = '=') with
      | none =>
          rw [hfi] at h
          exact absurd h (by simp)
      | some equalIndex =>
          rw [hfi] at h
          simp only [Option.some.injEq, Prod.mk.injEq] at h
          obtain ⟨hk, hv⟩ := h
          cases htr : trimChars line with
          | nil => exact absurd htr hemp
          | cons c rest =>
              have hcs : isJsSpace c = false :=
                trimChars_head_not_space line c (by rw [htr]; rfl)
              constructor
              · intro hke
                by_cases hc : c = '='
                · exact Or.inl (by simp [hc])
                · exfalso
                  rw [htr, List.findIdx?_cons] at hfi
                  rw [if_neg (by simp [hc])] at hfi
                  rw [List.findIdx?_succ] at hfi
                  cases hft : List.findIdx? (fun c2 => c2 = '=') rest with
                  | none => rw [hft] at hfi; simp at hfi
                  | some j =>
                      rw [hft] at hfi
                      simp at hfi
                      subst hfi
                      rw [htr, List.take_succ_cons] at hk
                      rw [trimChars_cons_of_not_space _ hcs] at hk
                      rw [← hk] at hke
                      exact absurd hke (by simp)
              · intro hd
                rcases hd with hd | hd
                · simp only [List.head?_cons, Option.some.injEq] at hd
                  rw [htr, List.findIdx?_cons] at hfi
                  rw [if_pos (by simp [hd])] at hfi
                  simp only [Option.some.injEq] at hfi
                  rw [htr, ← hfi, List.take_zero] at hk
                  exact hk.symm
                · exact absurd hd (by simp)

/-- Counterexample to C9 as stated: the line consisting of an equals sign
and a value parses into an entry whose key is empty. -/
theorem c9_empty_key_counterexample :
    (parseEnv (("=x").data) ⟨false, false⟩).entries.map EnvEntry.key = [[]] ∧
    (parseEnv (("=x").data) ⟨false, false⟩).entries.map EnvEntry.value =
      [("x").data] := by
  exact ⟨rfl, rfl⟩

/-- C9 amended: every entry parseEnv produces has a key free of the equals
sign; the entries list retains every produced occurrence in input order,
one entry per producing line (the trimmed key and parsed value of each
key=value line, plus an empty placeholder per blank line when empty lines
are preserved); a produced key is empty exactly when its line trims to
one starting with an equals sign, or is the blank-line placeholder; the
keys list is duplicate-free; for every nonempty key the map holds the
entry of its last occurrence among the produced entries; and the keys
list is exactly the domain of the map. -/
theorem c9_parseEnv_invariants (content : JsString) (opts : ParseOptions) :
    (∀ e ∈ (parseEnv content opts).entries, '=' ∉ e.key) ∧
    ((parseEnv content opts).entries.map (fun e => (e.key, e.value)) =
      (splitLines content).filterMap (lineEntryKV opts)) ∧
    (∀ (line k v : JsString), lineEntryKV opts line = some (k, v) →
      (k = [] ↔
        ((trimChars line).head? = some '=' ∨ trimChars line = []))) ∧
    (∀ e ∈ (parseEnv content opts).entries, e.key = [] →
      ∃ line ∈ splitLines content,
        lineEntryKV opts line = some (e.key, e.value) ∧
        ((trimChars line).head? = some '=' ∨ trimChars line = [])) ∧
    (parseEnv content opts).keys.Nodup ∧
    (∀ k, k ≠ [] → (parseEnv content opts).map k =
      ((parseEnv content opts).entries.filter
        (fun e => e.key == k)).getLast?) ∧
    (∀ k, k ∈ (parseEnv content opts).keys ↔
      ∃ e, (parseEnv content opts).map k = some e) := by
  have hfold : ∀ (lines : List JsString) (st : ParseState), parseStateInv st →
      parseStateInv (lines.foldl (parseLine opts) st) := by
    intro lines
    induction lines with
    | nil => intro st h; exact h
    | cons l ls ih =>
        intro st h
        exact ih _ (parseLine_preserves_inv opts st l h)
  have hinit : parseStateInv initParseState := by
    refine ⟨?_, ?_, ?_, ?_⟩
    · intro e he; simp [initParseState] at he
    · simp [initParseState]
    · intro k _; simp [initParseState]
    · intro k; simp [initParseState]
  obtain ⟨h1, h2, h3, h4⟩ := hfold (splitLines content) initParseState hinit
  have hkv : (parseEnv content opts).entries.map (fun e => (e.key, e.value)) =
      (splitLines content).filterMap (lineEntryKV opts) := by
    rw [show (parseEnv content opts).entries =
        ((splitLines content).foldl (parseLine opts) initParseState).entries
      from rfl]
    rw [foldl_parseLine_entries_kv]
    simp [initParseState]
  refine ⟨h1, hkv, ?_, ?_, h2, h3, h4⟩
  · intro line k v h
    exact lineEntryKV_key_empty_iff opts line k v h
  · intro e he hke
    have hmem : (e.key, e.value) ∈
        (parseEnv content opts).entries.map (fun e2 => (e2.key, e2.value)) :=
      List.mem_map.mpr ⟨e, he, rfl⟩
    rw [hkv] at hmem
    obtain ⟨line, hline, hsome⟩ := List.mem_filterMap.mp hmem
    exact ⟨line, hline, hsome,
      (lineEntryKV_key_empty_iff opts line e.key e.value hsome).mp hke⟩

/-- Witness for C9 amended: with two occurrences of the same key the map
holds the last one. -/
theorem c9_parseEnv_invariants_witness :
    (parseEnv (("A=1").data ++ '\n' :: ("A=2").data) ⟨false, false⟩).map
      (("A").data) =
    ((parseEnv (("A=1").data ++ '\n' :: ("A=2").data)
      ⟨false, false⟩).entries.filter
        (fun e => e.key == ("A").data)).getLast? :=
  (c9_parseEnv_invariants (("A=1").data ++ '\n' :: ("A=2").data)
    ⟨false, false⟩).2.2.2.2.2.1 (("A").data) (by decide)
/-! ## Secret classifier (C7)

Embedding of the two independently implemented name-based secret
detectors: isSecretKey from the codec module (eleven patterns) and
isSecretKeyByName from the diff module (nine patterns).  A case-insensitive
regex test for a literal token is a substring test on lowercased strings;
the pattern api optionally-separator key is the three-way substring test. -/

def toLowerJs (s : JsString) : JsString := s.map Char.toLower

def listStartsWith : List Char → List Char → Bool
  | [], _ => true
  | _ :: _, [] => false
  | p :: ps, c :: cs => p == c && listStartsWith ps cs

def listHasSub (pat : List Char) : List Char → Bool
  | [] => listStartsWith pat []
  | c :: rest => listStartsWith pat (c :: rest) || listHasSub pat rest

/-- Case-insensitive test of a literal pattern, as a regex test with the i
flag. -/
def testCI (pat : JsString) (s : JsString) : Bool :=
  listHasSub (toLowerJs pat) (toLowerJs s)

/-- Case-insensitive test of the pattern api, optional underscore or
hyphen, key. -/
def testApiKey (s : JsString) : Bool :=
  testCI (("apikey").data) s || testCI (("api_key").data) s ||
  testCI (("api-key").data) s

/-- Canonical secret classifier of the codec module. -/
def isSecretKey (key : JsString) : Bool :=
  [testCI (("secret").data), testCI (("password").data),
   testCI (("token").data), testCI (("key").data), testApiKey,
   testCI (("auth").data), testCI (("credential").data),
   testCI (("private").data), testCI (("passphrase").data),
   testCI (("seed").data), testCI (("mnemonic").data)].any
    (fun pattern => pattern key)

/-- Name-based secret detector of the diff module. -/
def isSecretKeyByName (key : JsString) : Bool :=
  [testCI (("secret").data), testCI (("password").data),
   testCI (("token").data), testCI (("key").data), testApiKey,
   testCI (("auth").data), testCI (("credential").data),
   testCI (("private").data), testCI (("passphrase").data)].any
    (fun pattern => pattern key)

/-- Secret decision made per key inside diffEnvs. -/
def diffIsSecret (secretKeys : List JsString) (key : JsString) : Bool :=
  secretKeys.contains key || isSecretKeyByName key

/-- Counterexample to C7 as stated: the key SEED matches the canonical
classifier (token seed) but not the diff engine rule set, so with an empty
explicit list the diff engine does not treat it as secret. -/
theorem c7_secret_classifier_counterexample :
    diffIsSecret [] (("SEED").data) = false ∧
    isSecretKey (("SEED").data) = true := by
  decide

/-- C7 amended: the diff engine treats a key as secret iff it is listed
explicitly or matches its own nine-token rule set; the canonical classifier
is exactly that rule set extended by the tokens seed and mnemonic, so the
two implementations agree on every key that matches neither seed nor
mnemonic. -/
theorem c7_secret_classifier_relation :
    (∀ (secretKeys : List JsString) (key : JsString),
      diffIsSecret secretKeys key =
        (secretKeys.contains key || isSecretKeyByName key)) ∧
    (∀ key : JsString, isSecretKey key =
      (isSecretKeyByName key || testCI (("seed").data) key ||
        testCI (("mnemonic").data) key)) := by
  constructor
  · intro secretKeys key
    rfl
  · intro key
    unfold isSecretKey isSecretKeyByName
    simp only [List.any_cons, List.any_nil, Bool.or_false]
    simp [Bool.or_assoc]

/-! ## Diff engine (C5)

Embedding of diffEnvs and its helpers from the diff module.  JavaScript
records are association lists (first binding wins, as object keys are
unique); the key-union Set preserves first-occurrence insertion order. -/

inductive DiffType where
  | added
  | removed
  | changed
  | unchanged
deriving DecidableEq, Repr

structure DiffEntry where
  key : JsString
  type : DiffType
  sourceValue : Option JsString := none
  targetValue : Option JsString := none
  isSecret : Bool
deriving DecidableEq, Repr

structure DiffResult where
  entries : List DiffEntry
  added : List DiffEntry
  removed : List DiffEntry
  changed : List DiffEntry
  unchanged : List DiffEntry
  hasChanges : Bool

structure DiffOptions where
  maskSecrets : Bool := true
  secretKeys : List JsString := []
  includeUnchanged : Bool := false

/-- Mask a value, showing only the first and last few characters. -/
def mask (value : JsString) (visible : Nat := 3) : JsString :=
  if value.length ≤ visible * 2 then List.replicate value.length '•'
  else value.take visible ++
    List.replicate (value.length - visible * 2) '•' ++
    value.drop (value.length - visible)

/-- Union of key lists with JavaScript Set semantics: duplicates removed,
first occurrence kept. -/
def jsUnion (l : List JsString) : List JsString :=
  l.foldl (fun acc x => if x ∈ acc then acc else acc ++ [x]) []

/-- Classification of one key of the union, mirroring the body of the
diffEnvs loop. -/
def diffClassify (source target : List (JsString × JsString))
    (o : DiffOptions) (k : JsString) : DiffEntry :=
  match List.lookup k source, List.lookup k target with
  | none, some tv =>
      ⟨k, .added, none,
        some (if o.maskSecrets && diffIsSecret o.secretKeys k then mask tv 3
          else tv),
        diffIsSecret o.secretKeys k⟩
  | none, none => ⟨k, .added, none, none, diffIsSecret o.secretKeys k⟩
  | some sv, none =>
      ⟨k, .removed,
        some (if o.maskSecrets && diffIsSecret o.secretKeys k then mask sv 3
          else sv),
        none, diffIsSecret o.secretKeys k⟩
  | some sv, some tv =>
      if sv ≠ tv then
        ⟨k, .changed,
          some (if o.maskSecrets && diffIsSecret o.secretKeys k then mask sv 3
            else sv),
          some (if o.maskSecrets && diffIsSecret o.secretKeys k then mask tv 3
            else tv),
          diffIsSecret o.secretKeys k⟩
      else
        ⟨k, .unchanged,
          some (if o.maskSecrets && diffIsSecret o.secretKeys k then mask sv 3
            else sv),
          some (if o.maskSecrets && diffIsSecret o.secretKeys k then mask tv 3
            else tv),
          diffIsSecret o.secretKeys k⟩

structure DiffAcc where
  entries : List DiffEntry
  added : List DiffEntry
  removed : List DiffEntry
  changed : List DiffEntry
  unchanged : List DiffEntry

/-- The diffEnvs loop over the key union, dispatching each classified entry
to its bucket, and to the entries list except for unchanged entries when
those are not included. -/
def diffLoop (source target : List (JsString × JsString)) (o : DiffOptions) :
    List JsString → DiffAcc
  | [] => ⟨[], [], [], [], []⟩
  | k :: ks =>
      { entries :=
          if o.includeUnchanged || (diffClassify source target o k).type ≠ .unchanged
          then diffClassify source target o k ::
            (diffLoop source target o ks).entries
          else (diffLoop source target o ks).entries,
        added :=
          if (diffClassify source target o k).type = .added
          then diffClassify source target o k ::
            (diffLoop source target o ks).added
          else (diffLoop source target o ks).added,
        removed :=
          if (diffClassify source target o k).type = .removed
          then diffClassify source target o k ::
            (diffLoop source target o ks).removed
          else (diffLoop source target o ks).removed,
        changed :=
          if (diffClassify source target o k).type = .changed
          then diffClassify source target o k ::
            (diffLoop source target o ks).changed
          else (diffLoop source target o ks).changed,
        unchanged :=
          if (diffClassify source target o k).type = .unchanged
          then diffClassify source target o k ::
            (diffLoop source target o ks).unchanged
          else (diffLoop source target o ks).unchanged }

/-- Compare two environment variable maps. -/
def diffEnvs (source target : List (JsString × JsString))
    (options : DiffOptions) : DiffResult :=
  ⟨(diffLoop source target options
      (jsUnion (source.map Prod.fst ++ target.map Prod.fst))).entries,
   (diffLoop source target options
      (jsUnion (source.map Prod.fst ++ target.map Prod.fst))).added,
   (diffLoop source target options
      (jsUnion (source.map Prod.fst ++ target.map Prod.fst))).removed,
   (diffLoop source target options
      (jsUnion (source.map Prod.fst ++ target.map Prod.fst))).changed,
   (diffLoop source target options
      (jsUnion (source.map Prod.fst ++ target.map Prod.fst))).unchanged,
   decide (0 < (diffLoop source target options
      (jsUnion (source.map Prod.fst ++ target.map Prod.fst))).added.length) ||
   decide (0 < (diffLoop source target options
      (jsUnion (source.map Prod.fst ++ target.map Prod.fst))).removed.length) ||
   decide (0 < (diffLoop source target options
      (jsUnion (source.map Prod.fst ++ target.map Prod.fst))).changed.length)⟩

theorem jsUnion_mem_aux (x : JsString) :
    ∀ (l acc : List JsString),
      (x ∈ l.foldl (fun acc2 y => if y ∈ acc2 then acc2 else acc2 ++ [y]) acc ↔
       x ∈ acc ∨ x ∈ l)
  | [], acc => by simp
  | y :: t, acc => by
      simp only [List.foldl_cons]
      rw [jsUnion_mem_aux x t]
      by_cases hy : y ∈ acc
      · rw [if_pos hy]
        constructor
        · rintro (h | h)
          · exact Or.inl h
          · exact Or.inr (List.mem_cons_of_mem y h)
        · rintro (h | h)
          · exact Or.inl h
          · rcases List.mem_cons.mp h with h2 | h2
            · exact Or.inl (h2 ▸ hy)
            · exact Or.inr h2
      · rw [if_neg hy]
        constructor
        · rintro (h | h)
          · rcases List.mem_append.mp h with h2 | h2
            · exact Or.inl h2
            · simp only [List.mem_singleton] at h2
              exact Or.inr (h2 ▸ List.mem_cons_self y t)
          · exact Or.inr (List.mem_cons_of_mem y h)
        · rintro (h | h)
          · exact Or.inl (List.mem_append.mpr (Or.inl h))
          · rcases List.mem_cons.mp h with h2 | h2
            · exact Or.inl (List.mem_append.mpr (Or.inr (by simp [h2])))
            · exact Or.inr h2

theorem jsUnion_mem (x : JsString) (l : List JsString) :
    x ∈ jsUnion l ↔ x ∈ l := by
  unfold jsUnion
  rw [jsUnion_mem_aux x l []]
  simp

theorem lookup_eq_none_iff (k : JsString) :
    ∀ (m : List (JsString × JsString)),
      List.lookup k m = none ↔ k ∉ m.map Prod.fst
  | [] => by simp
  | (a, b) :: m => by
      simp only [List.lookup, List.map_cons, List.mem_cons]
      by_cases hk : k = a
      · rw [show (k == a) = true from beq_iff_eq.mpr hk]
        simp [hk]
      · rw [show (k == a) = false from beq_eq_false_iff_ne.mpr hk]
        show List.lookup k m = none ↔ ¬(k = a ∨ k ∈ List.map Prod.fst m)
        rw [lookup_eq_none_iff k m]
        constructor
        · intro h hmem
          rcases hmem with h2 | h2
          · exact hk h2
          · exact h h2
        · intro h h2
          exact h (Or.inr h2)

theorem lookup_isSome_iff (k : JsString) (m : List (JsString × JsString)) :
    (∃ v, List.lookup k m = some v) ↔ k ∈ m.map Prod.fst := by
  constructor
  · rintro ⟨v, hv⟩
    by_contra hmem
    rw [← lookup_eq_none_iff] at hmem
    rw [hmem] at hv
    exact absurd hv (by simp)
  · intro hmem
    cases hl : List.lookup k m with
    | some v => exact ⟨v, rfl⟩
    | none => exact absurd ((lookup_eq_none_iff k m).mp hl) (by simp [hmem])

theorem diffClassify_eq_nn (source target : List (JsString × JsString))
    (o : DiffOptions) (k : JsString)
    (hs : List.lookup k source = none) (ht : List.lookup k target = none) :
    diffClassify source target o k =
      ⟨k, .added, none, none, diffIsSecret o.secretKeys k⟩ := by
  unfold diffClassify
  rw [hs, ht]

theorem diffClassify_eq_ns (source target : List (JsString × JsString))
    (o : DiffOptions) (k : JsString) (tv : JsString)
    (hs : List.lookup k source = none) (ht : List.lookup k target = some tv) :
    diffClassify source target o k =
      ⟨k, .added, none,
        some (if o.maskSecrets && diffIsSecret o.secretKeys k then mask tv 3
          else tv),
        diffIsSecret o.secretKeys k⟩ := by
  unfold diffClassify
  rw [hs, ht]

theorem diffClassify_eq_sn (source target : List (JsString × JsString))
    (o : DiffOptions) (k : JsString) (sv : JsString)
    (hs : List.lookup k source = some sv) (ht : List.lookup k target = none) :
    diffClassify source target o k =
      ⟨k, .removed,
        some (if o.maskSecrets && diffIsSecret o.secretKeys k then mask sv 3
          else sv),
        none, diffIsSecret o.secretKeys k⟩ := by
  unfold diffClassify
  rw [hs, ht]

theorem diffClassify_eq_ss (source target : List (JsString × JsString))
    (o : DiffOptions) (k : JsString) (sv tv : JsString)
    (hs : List.lookup k source = some sv)
    (ht : List.lookup k target = some tv) :
    diffClassify source target o k =
      (if sv ≠ tv then
        ⟨k, .changed,
          some (if o.maskSecrets && diffIsSecret o.secretKeys k then mask sv 3
            else sv),
          some (if o.maskSecrets && diffIsSecret o.secretKeys k then mask tv 3
            else tv),
          diffIsSecret o.secretKeys k⟩
      else
        (⟨k, .unchanged,
          some (if o.maskSecrets && diffIsSecret o.secretKeys k then mask sv 3
            else sv),
          some (if o.maskSecrets && diffIsSecret o.secretKeys k then mask tv 3
            else tv),
          diffIsSecret o.secretKeys k⟩ : DiffEntry)) := by
  unfold diffClassify
  rw [hs, ht]

theorem diffClassify_key (source target : List (JsString × JsString))
    (o : DiffOptions) (k : JsString) :
    (diffClassify source target o k).key = k := by
  cases hs : List.lookup k source with
  | none =>
      cases ht : List.lookup k target with
      | none => rw [diffClassify_eq_nn source target o k hs ht]
      | some tv => rw [diffClassify_eq_ns source target o k tv hs ht]
  | some sv =>
      cases ht : List.lookup k target with
      | none => rw [diffClassify_eq_sn source target o k sv hs ht]
      | some tv =>
          rw [diffClassify_eq_ss source target o k sv tv hs ht]
          split <;> rfl

theorem diffClassify_type_added (source target : List (JsString × JsString))
    (o : DiffOptions) (k : JsString) :
    ((diffClassify source target o k).type = .added ↔
      List.lookup k source = none) := by
  cases hs : List.lookup k source with
  | none =>
      cases ht : List.lookup k target with
      | none => rw [diffClassify_eq_nn source target o k hs ht]; simp
      | some tv => rw [diffClassify_eq_ns source target o k tv hs ht]; simp
  | some sv =>
      cases ht : List.lookup k target with
      | none => rw [diffClassify_eq_sn source target o k sv hs ht]; simp
      | some tv =>
          rw [diffClassify_eq_ss source target o k sv tv hs ht]
          split <;> simp

theorem diffClassify_type_removed (source target : List (JsString × JsString))
    (o : DiffOptions) (k : JsString) :
    ((diffClassify source target o k).type = .removed ↔
      (∃ sv, List.lookup k source = some sv) ∧
        List.lookup k target = none) := by
  cases hs : List.lookup k source with
  | none =>
      cases ht : List.lookup k target with
      | none => rw [diffClassify_eq_nn source target o k hs ht]; simp
      | some tv => rw [diffClassify_eq_ns source target o k tv hs ht]; simp
  | some sv =>
      cases ht : List.lookup k target with
      | none => rw [diffClassify_eq_sn source target o k sv hs ht]; simp
      | some tv =>
          rw [diffClassify_eq_ss source target o k sv tv hs ht]
          split <;> simp

theorem diffClassify_type_changed (source target : List (JsString × JsString))
    (o : DiffOptions) (k : JsString) :
    ((diffClassify source target o k).type = .changed ↔
      ∃ sv tv, List.lookup k source = some sv ∧
        List.lookup k target = some tv ∧ sv ≠ tv) := by
  cases hs : List.lookup k source with
  | none =>
      cases ht : List.lookup k target with
      | none => rw [diffClassify_eq_nn source target o k hs ht]; simp
      | some tv => rw [diffClassify_eq_ns source target o k tv hs ht]; simp
  | some sv =>
      cases ht : List.lookup k target with
      | none => rw [diffClassify_eq_sn source target o k sv hs ht]; simp
      | some tv =>
          rw [diffClassify_eq_ss source target o k sv tv hs ht]
          split
          · next hne => simp [hne]
          · next hne =>
              simp only [ne_eq, not_not] at hne
              subst hne
              simp

theorem diffClassify_type_unchanged
    (source target : List (JsString × JsString)) (o : DiffOptions)
    (k : JsString) :
    ((diffClassify source target o k).type = .unchanged ↔
      ∃ v, List.lookup k source = some v ∧ List.lookup k target = some v) := by
  cases hs : List.lookup k source with
  | none =>
      cases ht : List.lookup k target with
      | none => rw [diffClassify_eq_nn source target o k hs ht]; simp
      | some tv => rw [diffClassify_eq_ns source target o k tv hs ht]; simp
  | some sv =>
      cases ht : List.lookup k target with
      | none => rw [diffClassify_eq_sn source target o k sv hs ht]; simp
      | some tv =>
          rw [diffClassify_eq_ss source target o k sv tv hs ht]
          split
          · next hne =>
              simp only [ne_eq] at hne
              constructor
              · intro h
                exact absurd h (by simp)
              · rintro ⟨v, hv1, hv2⟩
                simp only [Option.some.injEq] at hv1 hv2
                exact absurd (hv1.trans hv2.symm) hne
          · next hne =>
              simp only [ne_eq, not_not] at hne
              subst hne
              exact ⟨fun _ => ⟨sv, rfl, rfl⟩, fun _ => rfl⟩

theorem diffLoop_added_eq (source target : List (JsString × JsString))
    (o : DiffOptions) :
    ∀ ks : List JsString,
      (diffLoop source target o ks).added =
        (ks.map (diffClassify source target o)).filter
          (fun e => decide (e.type = DiffType.added))
  | [] => rfl
  | k :: ks => by
      simp only [diffLoop, List.map_cons, List.filter_cons]
      by_cases h : (diffClassify source target o k).type = DiffType.added
      · simp [h, diffLoop_added_eq source target o ks]
      · simp [h, diffLoop_added_eq source target o ks]

theorem diffLoop_removed_eq (source target : List (JsString × JsString))
    (o : DiffOptions) :
    ∀ ks : List JsString,
      (diffLoop source target o ks).removed =
        (ks.map (diffClassify source target o)).filter
          (fun e => decide (e.type = DiffType.removed))
  | [] => rfl
  | k :: ks => by
      simp only [diffLoop, List.map_cons, List.filter_cons]
      by_cases h : (diffClassify source target o k).type = DiffType.removed
      · simp [h, diffLoop_removed_eq source target o ks]
      · simp [h, diffLoop_removed_eq source target o ks]

theorem diffLoop_changed_eq (source target : List (JsString × JsString))
    (o : DiffOptions) :
    ∀ ks : List JsString,
      (diffLoop source target o ks).changed =
        (ks.map (diffClassify source target o)).filter
          (fun e => decide (e.type = DiffType.changed))
  | [] => rfl
  | k :: ks => by
      simp only [diffLoop, List.map_cons, List.filter_cons]
      by_cases h : (diffClassify source target o k).type = DiffType.changed
      · simp [h, diffLoop_changed_eq source target o ks]
      · simp [h, diffLoop_changed_eq source target o ks]

theorem diffLoop_unchanged_eq (source target : List (JsString × JsString))
    (o : DiffOptions) :
    ∀ ks : List JsString,
      (diffLoop source target o ks).unchanged =
        (ks.map (diffClassify source target o)).filter
          (fun e => decide (e.type = DiffType.unchanged))
  | [] => rfl
  | k :: ks => by
      simp only [diffLoop, List.map_cons, List.filter_cons]
      by_cases h : (diffClassify source target o k).type = DiffType.unchanged
      · simp [h, diffLoop_unchanged_eq source target o ks]
      · simp [h, diffLoop_unchanged_eq source target o ks]

theorem diffLoop_entries_eq (source target : List (JsString × JsString))
    (o : DiffOptions) :
    ∀ ks : List JsString,
      (diffLoop source target o ks).entries =
        (ks.map (diffClassify source target o)).filter
          (fun e => o.includeUnchanged ||
            decide (e.type ≠ DiffType.unchanged))
  | [] => rfl
  | k :: ks => by
      simp only [diffLoop, List.map_cons, List.filter_cons]
      by_cases h : (o.includeUnchanged ||
          decide ((diffClassify source target o k).type ≠
            DiffType.unchanged)) = true
      · simp [h, diffLoop_entries_eq source target o ks]
      · simp [h, diffLoop_entries_eq source target o ks]

theorem diffEnvs_added_mem (source target : List (JsString × JsString))
    (o : DiffOptions) (k : JsString) :
    (∃ e ∈ (diffEnvs source target o).added, e.key = k) ↔
      (k ∉ source.map Prod.fst ∧ k ∈ target.map Prod.fst) := by
  simp only [diffEnvs]
  rw [diffLoop_added_eq]
  constructor
  · rintro ⟨e, he, hek⟩
    rw [List.mem_filter] at he
    obtain ⟨hmap, hty⟩ := he
    rw [List.mem_map] at hmap
    obtain ⟨k2, hk2, hek2⟩ := hmap
    subst hek2
    rw [diffClassify_key] at hek
    subst hek
    rw [decide_eq_true_iff, diffClassify_type_added] at hty
    have hns : k2 ∉ source.map Prod.fst :=
      (lookup_eq_none_iff k2 source).mp hty
    refine ⟨hns, ?_⟩
    rw [jsUnion_mem, List.mem_append] at hk2
    rcases hk2 with h2 | h2
    · exact absurd h2 hns
    · exact h2
  · rintro ⟨hns, hmt⟩
    refine ⟨diffClassify source target o k, ?_, diffClassify_key _ _ _ _⟩
    rw [List.mem_filter]
    constructor
    · rw [List.mem_map]
      refine ⟨k, ?_, rfl⟩
      rw [jsUnion_mem, List.mem_append]
      exact Or.inr hmt
    · rw [decide_eq_true_iff, diffClassify_type_added]
      exact (lookup_eq_none_iff k source).mpr hns

theorem diffEnvs_removed_mem (source target : List (JsString × JsString))
    (o : DiffOptions) (k : JsString) :
    (∃ e ∈ (diffEnvs source target o).removed, e.key = k) ↔
      (k ∈ source.map Prod.fst ∧ k ∉ target.map Prod.fst) := by
  simp only [diffEnvs]
  rw [diffLoop_removed_eq]
  constructor
  · rintro ⟨e, he, hek⟩
    rw [List.mem_filter] at he
    obtain ⟨hmap, hty⟩ := he
    rw [List.mem_map] at hmap
    obtain ⟨k2, hk2, hek2⟩ := hmap
    subst hek2
    rw [diffClassify_key] at hek
    subst hek
    rw [decide_eq_true_iff, diffClassify_type_removed] at hty
    obtain ⟨⟨sv, hsv⟩, htn⟩ := hty
    exact ⟨(lookup_isSome_iff k2 source).mp ⟨sv, hsv⟩,
      (lookup_eq_none_iff k2 target).mp htn⟩
  · rintro ⟨hms, hnt⟩
    refine ⟨diffClassify source target o k, ?_, diffClassify_key _ _ _ _⟩
    rw [List.mem_filter]
    constructor
    · rw [List.mem_map]
      refine ⟨k, ?_, rfl⟩
      rw [jsUnion_mem, List.mem_append]
      exact Or.inl hms
    · rw [decide_eq_true_iff, diffClassify_type_removed]
      exact ⟨(lookup_isSome_iff k source).mpr hms,
        (lookup_eq_none_iff k target).mpr hnt⟩

theorem diffEnvs_changed_mem (source target : List (JsString × JsString))
    (o : DiffOptions) (k : JsString) :
    (∃ e ∈ (diffEnvs source target o).changed, e.key = k) ↔
      (∃ sv tv, List.lookup k source = some sv ∧
        List.lookup k target = some tv ∧ sv ≠ tv) := by
  simp only [diffEnvs]
  rw [diffLoop_changed_eq]
  constructor
  · rintro ⟨e, he, hek⟩
    rw [List.mem_filter] at he
    obtain ⟨hmap, hty⟩ := he
    rw [List.mem_map] at hmap
    obtain ⟨k2, hk2, hek2⟩ := hmap
    subst hek2
    rw [diffClassify_key] at hek
    subst hek
    rw [decide_eq_true_iff, diffClassify_type_changed] at hty
    exact hty
  · rintro ⟨sv, tv, hsv, htv, hne⟩
    refine ⟨diffClassify source target o k, ?_, diffClassify_key _ _ _ _⟩
    rw [List.mem_filter]
    constructor
    · rw [List.mem_map]
      refine ⟨k, ?_, rfl⟩
      rw [jsUnion_mem, List.mem_append]
      exact Or.inl ((lookup_isSome_iff k source).mp ⟨sv, hsv⟩)
    · rw [decide_eq_true_iff, diffClassify_type_changed]
      exact ⟨sv, tv, hsv, htv, hne⟩

theorem diffEnvs_unchanged_mem (source target : List (JsString × JsString))
    (o : DiffOptions) (k : JsString) :
    (∃ e ∈ (diffEnvs source target o).unchanged, e.key = k) ↔
      (∃ v, List.lookup k source = some v ∧
        List.lookup k target = some v) := by
  simp only [diffEnvs]
  rw [diffLoop_unchanged_eq]
  constructor
  · rintro ⟨e, he, hek⟩
    rw [List.mem_filter] at he
    obtain ⟨hmap, hty⟩ := he
    rw [List.mem_map] at hmap
    obtain ⟨k2, hk2, hek2⟩ := hmap
    subst hek2
    rw [diffClassify_key] at hek
    subst hek
    rw [decide_eq_true_iff, diffClassify_type_unchanged] at hty
    exact hty
  · rintro ⟨v, hsv, htv⟩
    refine ⟨diffClassify source target o k, ?_, diffClassify_key _ _ _ _⟩
    rw [List.mem_filter]
    constructor
    · rw [List.mem_map]
      refine ⟨k, ?_, rfl⟩
      rw [jsUnion_mem, List.mem_append]
      exact Or.inl ((lookup_isSome_iff k source).mp ⟨v, hsv⟩)
    · rw [decide_eq_true_iff, diffClassify_type_unchanged]
      exact ⟨v, hsv, htv⟩

theorem diffEnvs_entries_mem (source target : List (JsString × JsString))
    (o : DiffOptions) (e : DiffEntry) :
    (e ∈ (diffEnvs source target o).entries ↔
      (e ∈ (diffEnvs source target o).added ∨
       e ∈ (diffEnvs source target o).removed ∨
       e ∈ (diffEnvs source target o).changed ∨
       (o.includeUnchanged = true ∧
         e ∈ (diffEnvs source target o).unchanged))) := by
  simp only [diffEnvs]
  rw [diffLoop_entries_eq, diffLoop_added_eq, diffLoop_removed_eq,
    diffLoop_changed_eq, diffLoop_unchanged_eq]
  simp only [List.mem_filter, decide_eq_true_iff]
  constructor
  · rintro ⟨hmap, hcond⟩
    rcases Bool.or_eq_true_iff.mp hcond with hinc | hne
    · cases hty : e.type with
      | added => exact Or.inl ⟨hmap, rfl⟩
      | removed => exact Or.inr (Or.inl ⟨hmap, rfl⟩)
      | changed => exact Or.inr (Or.inr (Or.inl ⟨hmap, rfl⟩))
      | unchanged => exact Or.inr (Or.inr (Or.inr ⟨hinc, hmap, rfl⟩))
    · rw [decide_eq_true_iff] at hne
      cases hty : e.type with
      | added => exact Or.inl ⟨hmap, rfl⟩
      | removed => exact Or.inr (Or.inl ⟨hmap, rfl⟩)
      | changed => exact Or.inr (Or.inr (Or.inl ⟨hmap, rfl⟩))
      | unchanged => exact absurd hty hne
  · rintro (⟨hmap, hty⟩ | ⟨hmap, hty⟩ | ⟨hmap, hty⟩ | ⟨hinc, hmap, hty⟩)
    · exact ⟨hmap, Bool.or_eq_true_iff.mpr (Or.inr (by simp [hty]))⟩
    · exact ⟨hmap, Bool.or_eq_true_iff.mpr (Or.inr (by simp [hty]))⟩
    · exact ⟨hmap, Bool.or_eq_true_iff.mpr (Or.inr (by simp [hty]))⟩
    · exact ⟨hmap, Bool.or_eq_true_iff.mpr (Or.inl hinc)⟩

theorem diffEnvs_hasChanges_iff (source target : List (JsString × JsString))
    (o : DiffOptions) :
    ((diffEnvs source target o).hasChanges = true ↔
      ((diffEnvs source target o).added ≠ [] ∨
       (diffEnvs source target o).removed ≠ [] ∨
       (diffEnvs source target o).changed ≠ [])) := by
  simp only [diffEnvs]
  simp [List.length_pos, Bool.or_eq_true, or_assoc]

/-- C5: diffEnvs classifies the keys of the union of the two key sets:
a key appears in the added bucket iff it is absent in source and present in
target, in removed iff present in source and absent in target, in changed
iff present in both with different values, in unchanged iff present in both
with the same value; entries holds the classified entries of the added,
removed and changed buckets, plus the unchanged ones exactly when
includeUnchanged is set; and hasChanges is true iff some added, removed or
changed entry exists. -/
theorem c5_diffEnvs_classification
    (source target : List (JsString × JsString)) (o : DiffOptions) :
    (∀ k : JsString,
      ((∃ e ∈ (diffEnvs source target o).added, e.key = k) ↔
        (k ∉ source.map Prod.fst ∧ k ∈ target.map Prod.fst)) ∧
      ((∃ e ∈ (diffEnvs source target o).removed, e.key = k) ↔
        (k ∈ source.map Prod.fst ∧ k ∉ target.map Prod.fst)) ∧
      ((∃ e ∈ (diffEnvs source target o).changed, e.key = k) ↔
        (∃ sv tv, List.lookup k source = some sv ∧
          List.lookup k target = some tv ∧ sv ≠ tv)) ∧
      ((∃ e ∈ (diffEnvs source target o).unchanged, e.key = k) ↔
        (∃ v, List.lookup k source = some v ∧
          List.lookup k target = some v))) ∧
    (∀ e : DiffEntry,
      e ∈ (diffEnvs source target o).entries ↔
        (e ∈ (diffEnvs source target o).added ∨
         e ∈ (diffEnvs source target o).removed ∨
         e ∈ (diffEnvs source target o).changed ∨
         (o.includeUnchanged = true ∧
           e ∈ (diffEnvs source target o).unchanged))) ∧
    ((diffEnvs source target o).hasChanges = true ↔
      ((diffEnvs source target o).added ≠ [] ∨
       (diffEnvs source target o).removed ≠ [] ∨
       (diffEnvs source target o).changed ≠ [])) :=
  ⟨fun k => ⟨diffEnvs_added_mem source target o k,
    diffEnvs_removed_mem source target o k,
    diffEnvs_changed_mem source target o k,
    diffEnvs_unchanged_mem source target o k⟩,
   diffEnvs_entries_mem source target o,
   diffEnvs_hasChanges_iff source target o⟩


/-! ## Schema validator (C6)

Embedding of validateEnv, validateValue and validateType from the core
validator module.  Records become association lists with unique keys; the
external JavaScript RegExp engine is passed in as an explicit test
function rtest, where rtest pattern value = none models a pattern on
which the RegExp constructor throws (the invalid-regex catch branch). -/

inductive FieldType where
  | string
  | number
  | boolean
  | url
  | email
deriving DecidableEq, Repr

structure SchemaField where
  type : Option FieldType := none
  required : Bool := false
  default : Option JsString := none
  regex : Option JsString := none
  minLength : Option Nat := none
  maxLength : Option Nat := none
  description : Option JsString := none
  secret : Bool := false
deriving DecidableEq, Repr

inductive ErrType where
  | missing
  | extra
  | invalid_type
  | invalid_format
  | too_short
  | too_long
deriving DecidableEq, Repr

structure ValidationError where
  key : JsString
  type : ErrType
  message : JsString
  value : Option JsString := none
deriving DecidableEq, Repr

structure ValidationResult where
  valid : Bool
  errors : List ValidationError
  warnings : List JsString
deriving DecidableEq, Repr

/-- A key name wrapped in single quotes, as in the error message templates. -/
def quoteName (s : JsString) : JsString :=
  singleQuoteChar :: (s ++ [singleQuoteChar])

def missingError (key : JsString) : ValidationError :=
  ⟨key, .missing,
    ("Required variable ").data ++ quoteName key ++
      (" is missing or empty").data, none⟩

def extraError (key : JsString) : ValidationError :=
  ⟨key, .extra,
    ("Extra variable ").data ++ quoteName key ++
      (" not defined in schema").data, none⟩

def invalidFormatError (key value : JsString) : ValidationError :=
  ⟨key, .invalid_format,
    ("Value for ").data ++ quoteName key ++
      (" does not match required format").data, some value⟩

def tooShortError (key value : JsString) (m : Nat) : ValidationError :=
  ⟨key, .too_short,
    ("Value for ").data ++ quoteName key ++ (" is too short (min ").data ++
      (Nat.repr m).data ++ (" characters)").data, some value⟩

def tooLongError (key value : JsString) (m : Nat) : ValidationError :=
  ⟨key, .too_long,
    ("Value for ").data ++ quoteName key ++ (" is too long (max ").data ++
      (Nat.repr m).data ++ (" characters)").data, some value⟩

def isAsciiDigit (c : Char) : Bool :=
  ('0').toNat ≤ c.toNat && c.toNat ≤ ('9').toNat

def isAsciiAlpha (c : Char) : Bool :=
  (('a').toNat ≤ c.toNat && c.toNat ≤ ('z').toNat) ||
  (('A').toNat ≤ c.toNat && c.toNat ≤ ('Z').toNat)

def isOctDigitChar (c : Char) : Bool :=
  ('0').toNat ≤ c.toNat && c.toNat ≤ ('7').toNat

def isBinDigitChar (c : Char) : Bool :=
  c = '0' || c = '1'

/-- Strip one leading sign character. -/
def stripSign (s : JsString) : JsString :=
  match s with
  | c :: rest => if c = '+' || c = '-' then rest else s
  | [] => []

/-- A signed decimal mantissa: after an optional sign, only digits and at
most one dot, with at least one digit. -/
def decMantissa (s : JsString) : Bool :=
  (stripSign s).any isAsciiDigit &&
  (stripSign s).all (fun c => isAsciiDigit c || c = '.') &&
  decide (((stripSign s).filter (fun c => c = '.')).length ≤ 1)

/-- A signed decimal exponent body: optional sign then one or more digits. -/
def decExponent (s : JsString) : Bool :=
  decide (stripSign s ≠ []) && (stripSign s).all isAsciiDigit

/-- Signed decimal literal with optional fraction and exponent, split at
the first letter e. -/
def decNumeric (s : JsString) : Bool :=
  decMantissa (s.takeWhile (fun c => !(c = 'e' || c = 'E'))) &&
  (match s.dropWhile (fun c => !(c = 'e' || c = 'E')) with
   | [] => true
   | _ :: tail => decExponent tail)

/-- Approximation of the JavaScript test isNaN (Number value) on an
already trimmed string: signed decimal with optional fraction and
exponent, signed Infinity, or unsigned 0x / 0o / 0b integer literals.
The empty string converts to 0 and is therefore numeric. -/
def jsNumericTrimmed (s : JsString) : Bool :=
  decide (s = []) ||
  (match s with
   | '0' :: c :: rest =>
       if c = 'x' || c = 'X' then decide (rest ≠ []) && rest.all isHexDigitChar
       else if c = 'o' || c = 'O' then
         decide (rest ≠ []) && rest.all isOctDigitChar
       else if c = 'b' || c = 'B' then
         decide (rest ≠ []) && rest.all isBinDigitChar
       else false
   | _ => false) ||
  (stripSign s == ("Infinity").data) ||
  decNumeric s

/-- The number-branch test of validateType: isNaN (Number value) or the
trimmed value is empty. -/
def numberCheckFails (value : JsString) : Bool :=
  !(jsNumericTrimmed (trimChars value)) || decide (trimChars value = [])

/-- The case-insensitive boolean literal regex of validateType. -/
def isBooleanLit (value : JsString) : Bool :=
  [("true").data, ("false").data, ("1").data, ("0").data,
    ("yes").data, ("no").data].contains (toLowerJs value)

def isSchemeChar (c : Char) : Bool :=
  isAsciiAlpha c || isAsciiDigit c || c = '+' || c = '-' || c = '.'

/-- Approximation of WHATWG URL constructor success (new URL value): a
nonempty ASCII-alpha-led run of scheme characters followed by a colon.
The WHATWG parser imposes further host-syntax conditions for special
schemes; those are not modelled, and no claim depends on the exact URL
language. -/
def isUrlLike (value : JsString) : Bool :=
  match value with
  | [] => false
  | c :: _ =>
      isAsciiAlpha c &&
      decide ((value.takeWhile (fun c2 => !(c2 = ':'))).length <
        value.length) &&
      (value.takeWhile (fun c2 => !(c2 = ':'))).all isSchemeChar

/-- A character admitted by the regex class of one non-space non-at run. -/
def emailChar (c : Char) : Bool :=
  !(isJsSpace c) && !(c = '@')

/-- Whether the string holds a dot that is neither its first nor its last
character. -/
def hasInteriorDot (s : JsString) : Bool :=
  (List.range s.length).any (fun i =>
    decide (0 < i) && decide (i + 1 < s.length) && decide (s.getD i ' ' = '.'))

/-- The email regex of validateType: one at-sign with a nonempty local
part of non-space non-at characters, and a domain of such characters
holding an interior dot. -/
def isEmailLike (value : JsString) : Bool :=
  decide ((value.filter (fun c => c = '@')).length = 1) &&
  decide (value.takeWhile (fun c => !(c = '@')) ≠ []) &&
  (value.takeWhile (fun c => !(c = '@'))).all emailChar &&
  (value.drop ((value.takeWhile (fun c => !(c = '@'))).length + 1)).all
    emailChar &&
  hasInteriorDot
    (value.drop ((value.takeWhile (fun c => !(c = '@'))).length + 1))

/-- Validate value type: the switch of validateType.  A field type without
a case (string) falls through to null. -/
def validateType (key value : JsString) : FieldType → Option ValidationError
  | .number =>
      if numberCheckFails value then
        some ⟨key, .invalid_type,
          ("Value for ").data ++ quoteName key ++
            (" must be a number").data, some value⟩
      else none
  | .boolean =>
      if !(isBooleanLit value) then
        some ⟨key, .invalid_type,
          ("Value for ").data ++ quoteName key ++
            (" must be a boolean").data, some value⟩
      else none
  | .url =>
      if !(isUrlLike value) then
        some ⟨key, .invalid_type,
          ("Value for ").data ++ quoteName key ++
            (" must be a valid URL").data, some value⟩
      else none
  | .email =>
      if !(isEmailLike value) then
        some ⟨key, .invalid_type,
          ("Value for ").data ++ quoteName key ++
            (" must be a valid email").data, some value⟩
      else none
  | .string => none

/-- The regex block of validateValue: an invalid pattern (rtest = none,
the constructor throw) is skipped. -/
def regexErrors (rtest : JsString → JsString → Option Bool)
    (key value : JsString) (field : SchemaField) : List ValidationError :=
  match field.regex with
  | none => []
  | some pat =>
      match rtest pat value with
      | none => []
      | some true => []
      | some false => [invalidFormatError key value]

/-- The length block of validateValue. -/
def lengthErrors (key value : JsString) (field : SchemaField) :
    List ValidationError :=
  (match field.minLength with
   | some m => if value.length < m then [tooShortError key value m] else []
   | none => []) ++
  (match field.maxLength with
   | some m => if m < value.length then [tooLongError key value m] else []
   | none => [])

/-- Validate a single value against a field definition; a type error stops
further validation of the field. -/
def validateValue (rtest : JsString → JsString → Option Bool)
    (key value : JsString) (field : SchemaField) : List ValidationError :=
  match field.type with
  | some ty =>
      match validateType key value ty with
      | some e => [e]
      | none => regexErrors rtest key value field ++
          lengthErrors key value field
  | none => regexErrors rtest key value field ++
      lengthErrors key value field

/-- One iteration of the schema-key loop of validateEnv: a required field
with an absent or empty value reports missing and continues; a present
nonempty value is validated. -/
def checkField (rtest : JsString → JsString → Option Bool)
    (envVars : List (JsString × JsString)) (key : JsString)
    (field : SchemaField) : List ValidationError :=
  if field.required &&
      ((List.lookup key envVars).isNone ||
        List.lookup key envVars == some []) then
    [missingError key]
  else
    match List.lookup key envVars with
    | some v => if v.isEmpty then [] else validateValue rtest key v field
    | none => []

/-- Validate environment variables against a schema: the schema argument
stands for schema.fields as an association list with unique keys. -/
def validateEnv (rtest : JsString → JsString → Option Bool)
    (envVars : List (JsString × JsString))
    (schema : List (JsString × SchemaField)) (allowExtra : Bool) :
    ValidationResult :=
  ⟨decide ((schema.flatMap (fun kf => checkField rtest envVars kf.1 kf.2) ++
      (if allowExtra then [] else
        ((envVars.map Prod.fst).filter
          (fun k => (List.lookup k schema).isNone)).map extraError)).length
      = 0),
   schema.flatMap (fun kf => checkField rtest envVars kf.1 kf.2) ++
     (if allowExtra then [] else
       ((envVars.map Prod.fst).filter
         (fun k => (List.lookup k schema).isNone)).map extraError),
   []⟩

theorem validateType_invalid_type (key v : JsString) (ty : FieldType)
    (e : ValidationError) (h : validateType key v ty = some e) :
    e.type = ErrType.invalid_type := by
  cases ty <;> simp only [validateType] at h
  case string => exact absurd h (by simp)
  all_goals
    (split at h
     · simp only [Option.some.injEq] at h
       subst h
       rfl
     · exact absurd h (by simp))

theorem checkField_missing (rtest : JsString → JsString → Option Bool)
    (envVars : List (JsString × JsString)) (key : JsString)
    (field : SchemaField) (hreq : field.required = true)
    (habs : List.lookup key envVars = none ∨
      List.lookup key envVars = some []) :
    checkField rtest envVars key field = [missingError key] := by
  unfold checkField
  rw [if_pos]
  rcases habs with h | h <;> simp [h, hreq]

theorem checkField_present (rtest : JsString → JsString → Option Bool)
    (envVars : List (JsString × JsString)) (key : JsString)
    (field : SchemaField) (v : JsString)
    (hv : List.lookup key envVars = some v) (hne : v ≠ []) :
    checkField rtest envVars key field = validateValue rtest key v field := by
  unfold checkField
  rw [hv]
  rw [if_neg]
  · simp [hne]
  · simp [hne]

theorem validateEnv_errors_eq (rtest : JsString → JsString → Option Bool)
    (envVars : List (JsString × JsString))
    (schema : List (JsString × SchemaField)) (allowExtra : Bool) :
    (validateEnv rtest envVars schema allowExtra).errors =
      schema.flatMap (fun kf => checkField rtest envVars kf.1 kf.2) ++
      (if allowExtra then [] else
        ((envVars.map Prod.fst).filter
          (fun k => (List.lookup k schema).isNone)).map extraError) := rfl

/-- C6: validateEnv reports a missing error for each required schema field
whose value is absent or empty and performs no further checks on such a
field; a field with a present nonempty value is validated, with the type
check coming first: a type failure (an invalid_type error) is the only
reported error of the field, suppressing its regex and length checks;
unless allowExtra is set, every variable key not in the schema yields an
extra error; and the valid flag is true iff the error list is empty. -/
theorem c6_validateEnv_characterization
    (rtest : JsString → JsString → Option Bool)
    (envVars : List (JsString × JsString))
    (schema : List (JsString × SchemaField)) (allowExtra : Bool) :
    (∀ kf ∈ schema, kf.2.required = true →
      (List.lookup kf.1 envVars = none ∨
        List.lookup kf.1 envVars = some []) →
      missingError kf.1 ∈
        (validateEnv rtest envVars schema allowExtra).errors) ∧
    (∀ (key : JsString) (field : SchemaField), field.required = true →
      (List.lookup key envVars = none ∨
        List.lookup key envVars = some []) →
      checkField rtest envVars key field = [missingError key]) ∧
    (∀ (key : JsString) (field : SchemaField) (v : JsString),
      List.lookup key envVars = some v → v ≠ [] →
      checkField rtest envVars key field =
        validateValue rtest key v field) ∧
    (∀ (key v : JsString) (field : SchemaField) (ty : FieldType)
      (e : ValidationError), field.type = some ty →
      validateType key v ty = some e →
      (validateValue rtest key v field = [e] ∧
        e.type = ErrType.invalid_type)) ∧
    (allowExtra = false →
      ∀ k ∈ envVars.map Prod.fst, List.lookup k schema = none →
        extraError k ∈
          (validateEnv rtest envVars schema allowExtra).errors) ∧
    ((validateEnv rtest envVars schema allowExtra).valid = true ↔
      (validateEnv rtest envVars schema allowExtra).errors = []) := by
  refine ⟨?_, ?_, ?_, ?_, ?_, ?_⟩
  · intro kf hkf hreq habs
    rw [validateEnv_errors_eq]
    refine List.mem_append.mpr (Or.inl ?_)
    refine List.mem_flatMap.mpr ⟨kf, hkf, ?_⟩
    rw [checkField_missing rtest envVars kf.1 kf.2 hreq habs]
    exact List.mem_singleton.mpr rfl
  · intro key field hreq habs
    exact checkField_missing rtest envVars key field hreq habs
  · intro key field v hv hne
    exact checkField_present rtest envVars key field v hv hne
  · intro key v field ty e hty he
    constructor
    · simp only [validateValue, hty, he]
    · exact validateType_invalid_type key v ty e he
  · intro hax k hk hnone
    subst hax
    rw [validateEnv_errors_eq]
    refine List.mem_append.mpr (Or.inr ?_)
    rw [if_neg (by simp)]
    refine List.mem_map.mpr ⟨k, ?_, rfl⟩
    refine List.mem_filter.mpr ⟨hk, ?_⟩
    simp [hnone]
  · simp only [validateEnv]
    rw [decide_eq_true_iff]
    exact List.length_eq_zero

def sampleField : SchemaField := { required := true }

def sampleSchema : List (JsString × SchemaField) :=
  [((("A").data), sampleField)]

/-- A closed instance of the C6 characterization: the required field A is
absent from an empty variable map, so its missing error is reported. -/
theorem c6_validateEnv_characterization_witness :
    missingError (("A").data) ∈
      (validateEnv (fun _ _ => none) [] sampleSchema false).errors :=
  (c6_validateEnv_characterization (fun _ _ => none) [] sampleSchema
      false).1 ((("A").data), sampleField)
    (List.mem_singleton.mpr rfl) rfl (Or.inl rfl)
